import Mathlib

/-
Verification of the oAW-to-RST generator (header parser, grouping/tag
normalizer, text formatting engine, TOC synchronizer, output writer).
Python strings are embedded as lists of characters; each definition mirrors
the corresponding function in src/lib/file_handler.py,
src/lib/file_generator.py or src/oaw_to_rst.py.
-/

/-- Python strings are modelled as lists of characters. -/
abbrev Str := List Char

/-- Convert a Lean string literal into the embedding type. -/
def str (s : String) : Str := s.data

/-- Python whitespace test (`str.isspace` on a single character,
the character class of the regex escape for whitespace). -/
def pyIsSpace (c : Char) : Bool :=
  c == ' ' || c == '\t' || c == '\n' || c == '\r' || c == '\x0b' || c == '\x0c'

/-- Python `str.lstrip()`. -/
def pyLstrip (s : Str) : Str := s.dropWhile pyIsSpace

/-- Python `str.rstrip()`. -/
def pyRstrip (s : Str) : Str := (pyLstrip s.reverse).reverse

/-- Python `str.strip()`. -/
def pyStrip (s : Str) : Str := pyRstrip (pyLstrip s)

/-- Boolean test that `p` is a leading run of `s` (Python `str.startswith`). -/
def strStartsWith : Str → Str → Bool
  | [], _ => true
  | _ :: _, [] => false
  | p :: ps, c :: cs => p == c && strStartsWith ps cs

/-- Boolean test that `suf` is a trailing run of `s` (Python `str.endswith`). -/
def strEndsWith (suf s : Str) : Bool := strStartsWith suf.reverse s.reverse

/-- Replicated spaces, as produced by Python's string repetition. -/
def spaces (n : Nat) : Str := List.replicate n ' '

/-- Join a list of strings with a separator (Python `sep.join`). -/
def strJoin (sep : Str) : List Str → Str
  | [] => []
  | [s] => s
  | s :: rest => s ++ sep ++ strJoin sep rest

/-- Split a string at every occurrence of one character, keeping empty
segments (the semantics of Python `str.split(c)`). -/
def splitChar (c : Char) : Str → List Str
  | [] => [[]]
  | ch :: rest =>
      match splitChar c rest with
      | [] => if ch == c then [[], []] else [[ch]]
      | seg :: segs => if ch == c then [] :: seg :: segs else (ch :: seg) :: segs

/-- Python `str.splitlines()` for newline-normalized text (reads go through
universal-newline translation, so only the newline character occurs). -/
def pySplitlines (s : Str) : List Str :=
  if s = [] then []
  else if strEndsWith (str "\n") s then (splitChar '\n' s).dropLast
  else splitChar '\n' s

/-- Split on runs of characters satisfying `p`, dropping empty tokens,
with an accumulator for the token currently being built. -/
def splitPredAux (p : Char → Bool) (cur : Str) : Str → List Str
  | [] => if cur = [] then [] else [cur]
  | c :: rest =>
      if p c then
        if cur = [] then splitPredAux p [] rest
        else cur :: splitPredAux p [] rest
      else splitPredAux p (cur ++ [c]) rest

/-- Split on runs of characters satisfying `p`, dropping empty tokens. -/
def pySplitPred (p : Char → Bool) (s : Str) : List Str := splitPredAux p [] s

/-- Python `str.split()` with no argument: split on whitespace runs. -/
def pySplitWs (s : Str) : List Str := pySplitPred pyIsSpace s

/-- Python `s.replace(",", " ")`. -/
def replaceComma (s : Str) : Str := s.map (fun c => if c = ',' then ' ' else c)

/-- Substring test: does `needle` occur contiguously inside `s`? -/
def strContainsSub (needle : Str) : Str → Bool
  | [] => strStartsWith needle []
  | c :: rest => strStartsWith needle (c :: rest) || strContainsSub needle rest

/-- Lexicographic comparison of strings by character code points, the order
Python uses when sorting strings. -/
def strLe : Str → Str → Bool
  | [], _ => true
  | _ :: _, [] => false
  | a :: as_, b :: bs =>
      if a.toNat < b.toNat then true
      else if b.toNat < a.toNat then false
      else strLe as_ bs

/-- The propositional form of `strLe`, used for sortedness statements. -/
def StrLeP (a b : Str) : Prop := strLe a b = true

instance : DecidableRel StrLeP := fun a b => by
  unfold StrLeP; infer_instance

/-- Python `sorted` on a list of strings. -/
def sortStrs (l : List Str) : List Str := List.insertionSort StrLeP l

/-- Zero-padded decimal rendering, Python `f-string` format `:04d`. -/
def format4 (n : Nat) : Str :=
  let d := str (Nat.repr n)
  spaces 0 ++ List.replicate (4 - d.length) '0' ++ d

/-- The list `[c, c+1, ..., c+n-1]` of consecutive naturals. -/
def natRange : Nat → Nat → List Nat
  | _, 0 => []
  | c, n + 1 => c :: natRange (c + 1) n

-- ### Header parser (src/lib/file_handler.py parse_tsc_header,
-- ### src/oaw_to_rst.py parse_tsc_header)

/-- The four header section names, in their fixed expected order. -/
inductive SectionName where
  | description
  | input
  | output
  | requirements
deriving DecidableEq, Repr

/-- The fixed order in which markers must appear. -/
def expectedOrder : List SectionName :=
  [.description, .input, .output, .requirements]

/-- Structural errors the header scan can report (each aborts the file). -/
inductive ScanErr where
  | outOfOrder (name : SectionName) (line : Nat)
  | mustStartWithDescription (line : Nat)
  | headerMissing
  | missingSections (missing : List SectionName)
deriving DecidableEq, Repr

/-- The accumulating state of the header scan: the free-text lines collected
per section, the active section, how many markers were accepted, and the
1-based line number at which each marker was seen. -/
structure ScanState where
  desc : List Str
  inp : List Str
  outp : List Str
  req : List Str
  current : Option SectionName
  orderIndex : Nat
  descLine : Option Nat
  inputLine : Option Nat
  outputLine : Option Nat
  reqLine : Option Nat
deriving DecidableEq, Repr

/-- The initial scan state. -/
def initScanState : ScanState :=
  ⟨[], [], [], [], none, 0, none, none, none, none⟩

/-- Strip the comment token and one following space from a comment line
(`strip_comment_prefix` in the source). -/
def stripCommentMark (s : Str) : Str :=
  if ¬ strStartsWith (str "//") (pyLstrip s) then s
  else
    let s2 := (pyLstrip s).drop 2
    if strStartsWith (str " ") s2 then s2.drop 1 else s2

/-- Recognize a section marker: the content must be one of the four section
names, case-insensitively, followed only by whitespace (the full match of
the source's marker pattern). -/
def matchMarker (content : Str) : Option SectionName :=
  let base := (pyRstrip content).map Char.toLower
  if base = str "description" then some .description
  else if base = str "input" then some .input
  else if base = str "output" then some .output
  else if base = str "requirements" then some .requirements
  else none

/-- Append a content line to the given section of the state. -/
def appendSection (st : ScanState) (sec : SectionName) (l : Str) : ScanState :=
  match sec with
  | .description => { st with desc := st.desc ++ [l] }
  | .input => { st with inp := st.inp ++ [l] }
  | .output => { st with outp := st.outp ++ [l] }
  | .requirements => { st with req := st.req ++ [l] }

/-- Record the 1-based line number at which a marker was accepted. -/
def setMarkerLine (st : ScanState) (sec : SectionName) (n : Nat) : ScanState :=
  match sec with
  | .description => { st with descLine := some n }
  | .input => { st with inputLine := some n }
  | .output => { st with outputLine := some n }
  | .requirements => { st with reqLine := some n }

/-- One pass of the header scan loop over the remaining lines, carrying the
1-based number of the next line. -/
def scanAux (st : ScanState) (lineNo : Nat) : List Str → Except ScanErr ScanState
  | [] => .ok st
  | raw :: rest =>
      if pyStrip raw = [] then
        if st.orderIndex > 0 then .ok st
        else scanAux st (lineNo + 1) rest
      else if strStartsWith (str "//") (pyLstrip raw) then
        match matchMarker (stripCommentMark raw) with
        | some name =>
            if expectedOrder.get? st.orderIndex = some name then
              scanAux
                (setMarkerLine
                  { st with current := some name, orderIndex := st.orderIndex + 1 }
                  name lineNo)
                (lineNo + 1) rest
            else .error (.outOfOrder name lineNo)
        | none =>
            match st.current with
            | none => .error (.mustStartWithDescription lineNo)
            | some sec =>
                scanAux (appendSection st sec (pyRstrip (stripCommentMark raw)))
                  (lineNo + 1) rest
      else
        if st.orderIndex = 0 then .error .headerMissing
        else .ok st

/-- Scan a file's lines and check that all four markers were present. -/
def scanHeader (lines : List Str) : Except ScanErr ScanState := do
  let st ← scanAux initScanState 1 lines
  if st.orderIndex < 4 then
    .error (.missingSections ((expectedOrder.drop st.orderIndex)))
  else .ok st

/-- Parsed header record (`TscHeader` in src/lib/file_handler.py). -/
structure TscHeader where
  description : Str
  inputText : Str
  outputText : Str
  requirements : List Str
  descLine : Nat
  inputLine : Nat
  outputLine : Nat
  requirementsLine : Nat
deriving DecidableEq, Repr

/-- Requirement-tag post-processing: join the requirement lines with spaces,
replace commas by spaces, split on whitespace, strip tokens, drop empties,
deduplicate and sort (the tail of `parse_tsc_header`). -/
def requirementTags (reqLines : List Str) : List Str :=
  let reqLine := replaceComma (strJoin (str " ") reqLines)
  let tagsRaw := ((pySplitWs reqLine).filter (fun t => pyStrip t ≠ [])).map pyStrip
  sortStrs tagsRaw.dedup

/-- Build the lib `TscHeader` from a final scan state. -/
def headerOfState (st : ScanState) : TscHeader :=
  { description := pyStrip (strJoin (str "\n") st.desc)
    inputText := pyStrip (strJoin (str "\n") st.inp)
    outputText := pyStrip (strJoin (str "\n") st.outp)
    requirements := requirementTags st.req
    descLine := st.descLine.getD 1
    inputLine := st.inputLine.getD 1
    outputLine := st.outputLine.getD 1
    requirementsLine := st.reqLine.getD 1 }

/-- `parse_tsc_header` of src/lib/file_handler.py: parse a file's contents
into a header, or report a structural error (the source collects the error
and returns `None`; the error value models which report was made). -/
def parse_tsc_header (contents : Str) : Except ScanErr TscHeader :=
  (scanHeader (pySplitlines contents)).map headerOfState

/-- Parsed header record of the monolith (`TscHeader` in src/oaw_to_rst.py),
which additionally carries the placeholder flag. -/
structure OawTscHeader where
  description : Str
  inputText : Str
  outputText : Str
  requirements : List Str
  placeholder : Bool
  descLine : Nat
  inputLine : Nat
  outputLine : Nat
  requirementsLine : Nat
deriving DecidableEq, Repr

/-- `parse_tsc_header` of src/oaw_to_rst.py: as the lib parser, plus the
placeholder determination (all four sections present but entirely empty). -/
def parse_tsc_header_oaw (contents : Str) : Except ScanErr OawTscHeader :=
  (scanHeader (pySplitlines contents)).map fun st =>
    { description := pyStrip (strJoin (str "\n") st.desc)
      inputText := pyStrip (strJoin (str "\n") st.inp)
      outputText := pyStrip (strJoin (str "\n") st.outp)
      requirements := requirementTags st.req
      placeholder := st.desc = [] && st.inp = [] && st.outp = [] && st.req = []
      descLine := st.descLine.getD 1
      inputLine := st.inputLine.getD 1
      outputLine := st.outputLine.getD 1
      requirementsLine := st.reqLine.getD 1 }

/-- `parse_all_headers` of src/lib/file_handler.py, for the files of one
group: files whose parse reports an error are skipped (the error has been
collected), the successfully parsed siblings are kept in order. -/
def parse_all_headers_group (files : List (Str × Str)) : List (Str × TscHeader) :=
  files.filterMap fun pc =>
    match parse_tsc_header pc.2 with
    | .ok h => some (pc.1, h)
    | .error _ => none

/-- `parse_all_headers` over all groups: each group's file list is parsed
independently (src/lib/file_handler.py lines 184-199). -/
def parse_all_headers (groups : List (Str × List (Str × Str))) :
    List (Str × List (Str × TscHeader)) :=
  groups.map fun g => (g.1, parse_all_headers_group g.2)

-- ### Text formatting engine (src/oaw_to_rst.py format_tests_value /
-- ### format_multiline_field; identical helpers in src/lib/file_generator.py)

/-- Build the token list for a tag list: every tag except the last gets a
trailing comma (the token-building comprehension of `format_tests_value`). -/
def mkTokens : List Str → List Str
  | [] => []
  | [t] => [t]
  | t :: rest => (t ++ [',']) :: mkTokens rest

/-- The greedy line-packing loop of `format_tests_value`, carrying the line
currently being built. -/
def greedyAux (delim : Str) (maxWidth : Nat) (current : Str) : List Str → List Str
  | [] => if current = [] then [] else [current]
  | t :: ts =>
      let candidate := if current = [] then t else current ++ delim ++ t
      if candidate.length > maxWidth ∧ current ≠ [] then
        current :: greedyAux delim maxWidth t ts
      else greedyAux delim maxWidth candidate ts

/-- Greedy packing of tokens onto lines of at most `maxWidth` characters,
starting from an empty line. -/
def greedy (delim : Str) (maxWidth : Nat) (tokens : List Str) : List Str :=
  greedyAux delim maxWidth [] tokens

/-- `format_tests_value` (src/oaw_to_rst.py lines 353-382): join the comma
decorated tokens with the delimiter; if the joined text exceeds the width,
pack tokens greedily and join the wrapped lines with a newline plus the
continuation indent. -/
def format_tests_value (tags : List Str) (delimiter : Str) (maxWidth : Nat)
    (indentSpaces : Nat) : Str :=
  let tokens := mkTokens tags
  let text := strJoin delimiter tokens
  if text.length ≤ maxWidth then text
  else
    let lines := greedy delimiter maxWidth tokens
    if lines.length ≤ 1 then lines.headD []
    else strJoin ('\n' :: spaces indentSpaces) lines

/-- Strip one trailing separator comma from a token. -/
def stripTrailingComma (s : Str) : Str :=
  if strEndsWith (str ",") s then s.dropLast else s

/-- The un-wrapping operation of the spec's round-trip property: split the
byte output into physical lines, remove the continuation indent from every
line after the first, join the lines with the delimiter, split on the
delimiter and strip the trailing separator commas. -/
def unwrapTests (indentSpaces : Nat) (out : Str) : List Str :=
  let ls := splitChar '\n' out
  let restored :=
    match ls with
    | [] => []
    | l0 :: rest => l0 :: rest.map (fun l => l.drop indentSpaces)
  ((splitChar ' ' (strJoin (str " ") restored)).map stripTrailingComma)

/-- `format_multiline_field` (src/oaw_to_rst.py lines 385-400 and
src/lib/file_generator.py lines 121-134): label line plus continuation lines
aligned under the start of the value. -/
def format_multiline_field (label : Str) (text : Str) (baseIndentSpaces : Nat) :
    List Str :=
  let indent := spaces baseIndentSpaces
  let valueIndent := spaces (baseIndentSpaces + label.length + 2)
  let parts := if text = [] then [[]] else pySplitlines text
  match parts with
  | [] => [indent ++ label ++ str ":"]
  | p0 :: rest =>
      (indent ++ label ++ str ": " ++ p0) :: rest.map (fun cont => valueIndent ++ cont)

-- ### Output writer core (src/lib/file_generator.py generate_group_rst)

/-- A reported warning: file, 1-based line, message. -/
structure Warning where
  file : Str
  line : Nat
  msg : Str
deriving DecidableEq, Repr

/-- One file of a group as the generator sees it: the filename, the filename
stem, and its parsed header. -/
structure FileRec where
  name : Str
  stem : Str
  hdr : TscHeader
deriving DecidableEq, Repr

/-- `build_tests_line` (src/lib/file_generator.py lines 162-173): the
per-file tests line, or a TODO plus warning when the record has no tags. -/
def build_tests_line (p : Str) (hdr : TscHeader) : Str × List Warning :=
  if hdr.requirements ≠ [] then
    (str "      :tests: " ++ format_tests_value hdr.requirements (str " ") 120 14, [])
  else
    (str "      :tests: TODO:Update the Requirements field in the header of " ++ p,
     [⟨p, hdr.requirementsLine,
       str "Missing Requirements content; emitting TODO in test specification rst file"⟩])

/-- `build_field_lines` (src/lib/file_generator.py lines 175-187): the
formatted field lines, or a TODO plus warning when the content is empty. -/
def build_field_lines (label : Str) (content : Str) (lineNo : Nat) (p : Str) :
    List Str × List Warning :=
  if content ≠ [] then (format_multiline_field label content 6, [])
  else
    (format_multiline_field label
      (str "TODO:Update the " ++ label ++ str " field in the header of " ++ p) 6,
     [⟨p, lineNo, str "Missing " ++ label ++ str " content; emitting TODO in test specification rst file"⟩])

/-- Fuel-driven helper for the chunk slicing: at each step take the next 7
elements as one chunk; the fuel bounds the number of steps so the recursion
is structural. -/
def chunks7Fuel : Nat → List Str → List (List Str)
  | _, [] => []
  | 0, _ => []
  | n + 1, xs => xs.take 7 :: chunks7Fuel n (xs.drop 7)

/-- Split a non-empty list into consecutive chunks of at most 7 elements
(the slicing comprehension of generate_group_rst). -/
def chunks7 (xs : List Str) : List (List Str) := chunks7Fuel xs.length xs

/-- The chunk list of a record: chunks of at most 7 tags, or one empty chunk
when the record has no tags (`... or [[]]` in the source). -/
def recordChunks (reqs : List Str) : List (List Str) :=
  if reqs = [] then [[]] else chunks7 reqs

/-- One numeric sub-step of a file record, as handed to the renderer. -/
structure SubstepCtx where
  index : Nat
  id : Nat
  testsLine : Str
  descLines : List Str
  inputLines : List Str
  outputLines : List Str
deriving DecidableEq, Repr

/-- One per-file step, as handed to the renderer. -/
structure StepCtx where
  fileDisplayName : Str
  id1 : Nat
  substeps : List SubstepCtx
deriving DecidableEq, Repr

/-- The substep-building loop of generate_group_rst (lines 204-236): one
substep per chunk, consuming one identifier each; only the first numeric
step carries the Input/Output blocks, later ones repeat the Description. -/
def buildSubstepsAux (p : Str) (hdr : TscHeader) (descL inputL outputL : List Str)
    (counter idx : Nat) : List (List Str) → List SubstepCtx × Nat × List Warning
  | [] => ([], counter, [])
  | chunk :: rest =>
      let tl :=
        if chunk ≠ [] then
          (str "      :tests: " ++ format_tests_value chunk (str " ") 120 14,
           ([] : List Warning))
        else build_tests_line p hdr
      let fields :=
        if idx = 1 then (descL, inputL, outputL) else (descL, [], [])
      let restRes := buildSubstepsAux p hdr descL inputL outputL (counter + 1) (idx + 1) rest
      (⟨idx, counter, tl.1, fields.1, fields.2.1, fields.2.2⟩ :: restRes.1,
       restRes.2.1, tl.2 ++ restRes.2.2)

/-- The per-record body of the generation loop (lines 189-244): assign the
file-level identifier, build the field lines once, then one substep per
chunk. -/
def buildStep (r : FileRec) (counter : Nat) : StepCtx × Nat × List Warning :=
  let id1 := counter
  let descRes := build_field_lines (str "Description") r.hdr.description r.hdr.descLine r.name
  let inputRes := build_field_lines (str "Input") r.hdr.inputText r.hdr.inputLine r.name
  let outputRes := build_field_lines (str "Output") r.hdr.outputText r.hdr.outputLine r.name
  let chunks := recordChunks r.hdr.requirements
  let subRes := buildSubstepsAux r.name r.hdr descRes.1 inputRes.1 outputRes.1 (counter + 1) 1 chunks
  (⟨r.stem, id1, subRes.1⟩, subRes.2.1,
   descRes.2 ++ inputRes.2 ++ outputRes.2 ++ subRes.2.2)

/-- The full step-building loop over a group's records. -/
def buildSteps (counter : Nat) : List FileRec → List StepCtx × Nat × List Warning
  | [] => ([], counter, [])
  | r :: rs =>
      let s := buildStep r counter
      let rest := buildSteps s.2.1 rs
      (s.1 :: rest.1, rest.2.1, s.2.2 ++ rest.2.2)

/-- The steps built for one group document: the identifier counter starts at
1 for every group (line 160 of generate_group_rst). -/
def generateGroupSteps (parsed : List FileRec) : List StepCtx :=
  (buildSteps 1 parsed).1

/-- The warnings emitted while building one group's steps. -/
def generateGroupWarnings (parsed : List FileRec) : List Warning :=
  (buildSteps 1 parsed).2.2

/-- The aggregated group tags (lines 150-155): the sorted deduplicated union
of the member records' requirement tags. -/
def allTags (parsed : List FileRec) : List Str :=
  sortStrs (parsed.flatMap (fun r => r.hdr.requirements)).dedup

/-- The aggregated group tests value (line 156). -/
def testsAgg (parsed : List FileRec) : Str :=
  format_tests_value (allTags parsed) (str " ") 120 11

/-- The group-header tests line of the rendered document (line 287). -/
def aggTestsLine (parsed : List FileRec) : Str :=
  str "   :tests: " ++ testsAgg parsed

/-- All identifiers assigned within a group, in the order they are assigned:
for each record the file-level identifier then its substep identifiers. -/
def idsOfSteps (steps : List StepCtx) : List Nat :=
  steps.flatMap (fun s => s.id1 :: s.substeps.map (fun ss => ss.id))

/-- The rendered 4-digit identifier strings of a group, in assignment order. -/
def idStringsOfSteps (steps : List StepCtx) : List Str :=
  (idsOfSteps steps).map format4

/-- The number of identifiers a group's records consume. -/
def idTotal (parsed : List FileRec) : Nat :=
  (parsed.map (fun r => 1 + (recordChunks r.hdr.requirements).length)).sum

-- ### TOC synchronizer (src/lib/file_generator.py lines 16-103)

/-- `convert_group_name`: map a group to its configured display name by
looking up the lowercased group in the mapping table. -/
def convert_group_name (group : Str) (mappings : List (Str × Str)) : Str :=
  match (mappings.find? (fun kv => kv.1 = group.map Char.toLower)) with
  | some kv => kv.2
  | none => group

/-- The generated-entry marker of a component, `{component}_oAW_`. -/
def genMark (component : Str) : Str := component ++ str "_oAW_"

/-- The TOC line appended for a group (lines 92-95): three indent spaces
and the generated document filename. -/
def tocLinkLine (component : Str) (mappings : List (Str × Str)) (group : Str) : Str :=
  str "   " ++ genMark component ++ convert_group_name group mappings ++ str "_Tests.rst"

/-- Whether a TOC line is recognized as a generated line: its stripped
content starts with the generated-entry marker. -/
def isGenLine (component : Str) (ln : Str) : Bool :=
  strStartsWith (genMark component) (pyLstrip ln)

/-- `remove_generated_lines_from_toc` (lines 65-78) on the document text:
keep every line that is not a generated line, rejoin with newlines and a
final newline. -/
def remove_generated_lines_from_toc (component : Str) (text : Str) : Str :=
  let lines := pySplitlines text
  let filtered := lines.filter (fun ln => ! isGenLine component ln)
  strJoin (str "\n") filtered ++ str "\n"

/-- `append_group_links_to_toc` (lines 81-103) on the document text: append
one link line per group, after ensuring the document ends with a newline. -/
def append_group_links_to_toc (component : Str) (groups : List Str)
    (mappings : List (Str × Str)) (text : Str) : Str :=
  let appendedLines := groups.map (tocLinkLine component mappings)
  let text1 := if strEndsWith (str "\n") text then text else text ++ str "\n"
  text1 ++ strJoin (str "\n") appendedLines ++ str "\n"

-- ### Per-record rendering of the monolith (src/oaw_to_rst.py lines 450-553)

/-- The framing lines of one record's two steps in the monolith renderer. -/
def oawFrameLines (component conv stem : Str) (id1 id2 : Nat) : List Str :=
  [str "   .. sw_test_step:: " ++ stem,
   str "      :id: TSS_" ++ component ++ str "_oAW_" ++ conv ++ str "_Tests_" ++ format4 id1,
   str "      :collapse: true",
   [],
   str "   .. sw_test_step:: 1",
   str "      :id: TSS_" ++ component ++ str "_oAW_" ++ conv ++ str "_Tests_" ++ format4 id2,
   str "      :collapse: true"]

/-- The placeholder branch of the monolith renderer (lines 466-498): a TODO
tests line and TODO Description/Input/Output fields, each naming the file. -/
def oawPlaceholderLines (name : Str) : List Str :=
  [str "      :tests: TODO:Update the Requirements field in the header of " ++ name,
   str "      "]
  ++ format_multiline_field (str "Description")
       (str "TODO:Update the Description field in the header of " ++ name) 6
  ++ [str "      "]
  ++ format_multiline_field (str "Input")
       (str "TODO:Update the Input field in the header of " ++ name) 6
  ++ [[]]
  ++ format_multiline_field (str "Output")
       (str "TODO:Update the Output field in the header of " ++ name) 6

/-- The non-placeholder branch of the monolith renderer (lines 499-552). -/
def oawContentLines (name : Str) (hdr : OawTscHeader) : List Str :=
  (if hdr.requirements ≠ [] then
    [str "      :tests: " ++ format_tests_value hdr.requirements (str " ") 120 14]
   else
    [str "      :tests: TODO:Update the Requirements field in the header of " ++ name])
  ++ [str "      "]
  ++ (if hdr.description ≠ [] then format_multiline_field (str "Description") hdr.description 6
      else format_multiline_field (str "Description")
        (str "TODO:Update the Description field in the header of " ++ name) 6)
  ++ [str "      "]
  ++ (if hdr.inputText ≠ [] then format_multiline_field (str "Input") hdr.inputText 6
      else format_multiline_field (str "Input")
        (str "TODO:Update the Input field in the header of " ++ name) 6)
  ++ [[]]
  ++ (if hdr.outputText ≠ [] then format_multiline_field (str "Output") hdr.outputText 6
      else format_multiline_field (str "Output")
        (str "TODO:Update the Output field in the header of " ++ name) 6)

/-- One record's block in the monolith renderer: the frame, then the
placeholder or content branch, then a blank line (line 553). -/
def oawRecordLines (component conv stem name : Str) (hdr : OawTscHeader)
    (id1 id2 : Nat) : List Str :=
  oawFrameLines component conv stem id1 id2
  ++ (if hdr.placeholder then oawPlaceholderLines name else oawContentLines name hdr)
  ++ [[]]

-- ### TOC locate (src/lib/file_generator.py find_toc_rst, lines 23-47)

/-- A directory tree: whether the searched filename exists as a direct child
of this directory, and the named subdirectories in the order the directory
scan yields them. -/
inductive FsTree where
  | node (hasFile : Bool) (children : List (Str × FsTree))

/-- Whether the searched file is a direct child of the root. -/
def FsTree.rootHasFile : FsTree → Bool
  | .node h _ => h

mutual

/-- The matches of a recursive glob for the searched filename, in traversal
order: the current directory's match first, then each subdirectory's matches
depth-first, in directory order. A match is the list of directory names from
the root down to the directory holding the file. -/
def rglobMatches : FsTree → List (List Str)
  | .node hasFile cs => (if hasFile then [[]] else []) ++ rglobChildren cs

/-- Matches contributed by a list of subdirectories, in order. -/
def rglobChildren : List (Str × FsTree) → List (List Str)
  | [] => []
  | (n, c) :: rest => (rglobMatches c).map (fun p => n :: p) ++ rglobChildren rest

end

/-- `find_toc_rst`: prefer the direct child of the search root; otherwise
take the first match of the recursive glob; no match is a fatal error
(modelled as `none`). -/
def find_toc_rst (t : FsTree) : Option (List Str) :=
  if t.rootHasFile then some []
  else
    match rglobMatches t with
    | [] => none
    | m :: _ => some m

/-- Path comparison used by the spec's selection rule: shallower relative
depth first, ties broken by the lexicographically smaller path string. -/
def pathBefore (a b : List Str) : Bool :=
  a.length < b.length ||
    (a.length == b.length && (strLe (strJoin (str "/") a) (strJoin (str "/") b)
      && strJoin (str "/") a ≠ strJoin (str "/") b))

/-- Modelled from the spec: the selection rule of the locate contract as the
spec words it — prefer the direct child, otherwise pick, among all recursive
matches, the one with the shallowest relative depth, breaking ties by the
lexicographically smallest path. Used only to compare against the code's
`find_toc_rst`. -/
def specFindToc (t : FsTree) : Option (List Str) :=
  if t.rootHasFile then some []
  else
    match rglobMatches t with
    | [] => none
    | m :: ms => some (ms.foldl (fun best p => if pathBefore p best then p else best) m)

/-- The marker-order invariant of the header scan: the first `orderIndex`
markers have been seen, at strictly increasing 1-based line numbers below
the current line. -/
def MarkerChain (st : ScanState) (n : Nat) : Prop :=
  (1 ≤ st.orderIndex → ∃ d, st.descLine = some d ∧ d < n) ∧
  (2 ≤ st.orderIndex → ∃ d i, st.descLine = some d ∧ st.inputLine = some i ∧
    d < i ∧ i < n) ∧
  (3 ≤ st.orderIndex → ∃ d i o, st.descLine = some d ∧ st.inputLine = some i ∧
    st.outputLine = some o ∧ d < i ∧ i < o ∧ o < n) ∧
  (4 ≤ st.orderIndex → ∃ d i o q, st.descLine = some d ∧ st.inputLine = some i ∧
    st.outputLine = some o ∧ st.reqLine = some q ∧ d < i ∧ i < o ∧ o < q ∧ q < n)

/-- Append a list of content lines to one section of the scan state, as the
scan loop does for consecutive non-marker comment lines. -/
def appendBody (st : ScanState) (sec : SectionName) (bs : List Str) : ScanState :=
  bs.foldl (fun s c => appendSection s sec (pyRstrip c)) st

/-- A character on which requirement-tag text is split: whitespace or a
comma. -/
def isTagSep (c : Char) : Bool := pyIsSpace c || c == ','

/-- The requirement-tag normalization as the spec words it: split the
requirements section text on both commas and whitespace, trim each token,
deduplicate, and sort lexicographically ascending. -/
def specTags (text : Str) : List Str :=
  sortStrs ((pySplitPred isTagSep text).map pyStrip).dedup

/-- Number of lines of a rendered block that carry a TODO substitution. -/
def countTodo (lines : List Str) : Nat :=
  (lines.filter (fun l => strContainsSub (str "TODO:") l)).length

-- basic lemmas about the string infrastructure

theorem strLe_cons (a b : Char) (as_ bs : Str) :
    strLe (a :: as_) (b :: bs) = true ↔
      (a.toNat < b.toNat ∨ (a.toNat = b.toNat ∧ strLe as_ bs = true)) := by
  simp only [strLe]
  by_cases h1 : a.toNat < b.toNat
  · simp [h1]
  · by_cases h2 : b.toNat < a.toNat
    · simp [h1, h2]; omega
    · have h3 : a.toNat = b.toNat := by omega
      simp [h1, h2, h3]

theorem strLe_total (a b : Str) : strLe a b = true ∨ strLe b a = true := by
  induction a generalizing b with
  | nil => left; rfl
  | cons x xs ih =>
    cases b with
    | nil => right; rfl
    | cons y ys =>
      rw [strLe_cons, strLe_cons]
      by_cases hxy : x.toNat < y.toNat
      · left; left; exact hxy
      · by_cases hyx : y.toNat < x.toNat
        · right; left; exact hyx
        · have hxe : x.toNat = y.toNat := by omega
          rcases ih ys with h | h
          · left; right; exact ⟨hxe, h⟩
          · right; right; exact ⟨hxe.symm, h⟩

theorem strLe_trans {a b c : Str} (h1 : strLe a b = true) (h2 : strLe b c = true) :
    strLe a c = true := by
  induction a generalizing b c with
  | nil => rfl
  | cons x xs ih =>
    cases b with
    | nil => simp [strLe] at h1
    | cons y ys =>
      cases c with
      | nil => simp [strLe] at h2
      | cons z zs =>
        rw [strLe_cons] at h1 h2 ⊢
        rcases h1 with h1 | ⟨h1e, h1r⟩ <;> rcases h2 with h2 | ⟨h2e, h2r⟩
        · left; omega
        · left; omega
        · left; omega
        · right; exact ⟨by omega, ih h1r h2r⟩

theorem sortStrs_sorted (l : List Str) : (sortStrs l).Sorted StrLeP := by
  haveI : IsTotal Str StrLeP := ⟨fun a b => strLe_total a b⟩
  haveI : IsTrans Str StrLeP := ⟨fun _ _ _ h1 h2 => strLe_trans h1 h2⟩
  exact List.sorted_insertionSort StrLeP l

theorem sortStrs_perm (l : List Str) : List.Perm (sortStrs l) l :=
  List.perm_insertionSort StrLeP l

theorem sortStrs_nodup {l : List Str} (h : l.Nodup) : (sortStrs l).Nodup :=
  ((sortStrs_perm l).nodup_iff).2 h

theorem mem_sortStrs {l : List Str} {a : Str} : a ∈ sortStrs l ↔ a ∈ l :=
  (sortStrs_perm l).mem_iff


-- ### Lemmas about splitting and joining

theorem splitChar_cons_eq (c ch : Char) (rest : Str) :
    splitChar c (ch :: rest) =
      match splitChar c rest with
      | [] => if ch == c then [[], []] else [[ch]]
      | seg :: segs => if ch == c then [] :: seg :: segs else (ch :: seg) :: segs := rfl

theorem splitChar_cons_of (c ch : Char) {rest : Str} {seg : Str} {segs : List Str}
    (h : splitChar c rest = seg :: segs) :
    splitChar c (ch :: rest) =
      if ch == c then [] :: seg :: segs else (ch :: seg) :: segs := by
  rw [splitChar_cons_eq, h]

theorem splitChar_ne_nil (c : Char) (s : Str) : splitChar c s ≠ [] := by
  induction s with
  | nil => simp [splitChar]
  | cons ch rest ih =>
    rw [splitChar_cons_eq]
    rcases h : splitChar c rest with _ | ⟨seg, segs⟩
    · by_cases hc : ch = c <;> simp [hc]
    · by_cases hc : ch = c <;> simp [hc]

theorem splitChar_no_sep (c : Char) (s : Str) :
    ∀ seg ∈ splitChar c s, c ∉ seg := by
  induction s with
  | nil => simp [splitChar]
  | cons ch rest ih =>
    intro x hx
    rcases h : splitChar c rest with _ | ⟨seg, segs⟩
    · exact absurd h (splitChar_ne_nil c rest)
    · rw [splitChar_cons_of c ch h] at hx
      by_cases hc : ch = c
      · subst hc
        rw [if_pos (by simp)] at hx
        rcases List.mem_cons.mp hx with rfl | hx2
        · simp
        · rcases List.mem_cons.mp hx2 with rfl | hx3
          · exact ih x (by simp [h])
          · exact ih x (by simp [h, hx3])
      · rw [if_neg (by simp [hc])] at hx
        rcases List.mem_cons.mp hx with rfl | hx2
        · intro hmem
          rcases List.mem_cons.mp hmem with rfl | hmem2
          · exact hc rfl
          · exact (ih seg (by simp [h])) hmem2
        · exact ih x (by simp [h, hx2])

theorem splitChar_of_not_mem {c : Char} {s : Str} (h : c ∉ s) :
    splitChar c s = [s] := by
  induction s with
  | nil => rfl
  | cons ch rest ih =>
    have hch : ch ≠ c := by rintro rfl; exact h (List.mem_cons_self _ _)
    have hchb : ¬ (ch == c) = true := by simp [hch]
    have hrest : c ∉ rest := fun hr => h (List.mem_cons_of_mem _ hr)
    rw [splitChar_cons_eq, ih hrest]
    simp [hchb]

theorem splitChar_append_cons {c : Char} {a : Str} (b : Str) (h : c ∉ a) :
    splitChar c (a ++ c :: b) = a :: splitChar c b := by
  induction a with
  | nil =>
    rw [List.nil_append, splitChar_cons_eq]
    rcases hb : splitChar c b with _ | ⟨seg, segs⟩
    · exact absurd hb (splitChar_ne_nil c b)
    · simp
  | cons ch rest ih =>
    have hch : ch ≠ c := by rintro rfl; exact h (List.mem_cons_self _ _)
    have hchb : ¬ (ch == c) = true := by simp [hch]
    have hrest : c ∉ rest := fun hr => h (List.mem_cons_of_mem _ hr)
    rw [List.cons_append, splitChar_cons_eq, ih hrest]
    simp [hchb]

theorem strJoin_cons₂ (sep s t : Str) (rest : List Str) :
    strJoin sep (s :: t :: rest) = s ++ sep ++ strJoin sep (t :: rest) := rfl

theorem strJoin_append {sep : Str} {a b : List Str} (ha : a ≠ []) (hb : b ≠ []) :
    strJoin sep (a ++ b) = strJoin sep a ++ sep ++ strJoin sep b := by
  induction a with
  | nil => exact absurd rfl ha
  | cons x xs ih =>
    cases xs with
    | nil =>
      cases b with
      | nil => exact absurd rfl hb
      | cons y ys => simp [strJoin_cons₂, strJoin]
    | cons x2 xs2 =>
      have h2 := ih (by simp)
      have e1 : (x :: x2 :: xs2) ++ b = x :: x2 :: (xs2 ++ b) := by simp
      have e2 : x2 :: (xs2 ++ b) = (x2 :: xs2) ++ b := by simp
      rw [e1, strJoin_cons₂, e2, h2, strJoin_cons₂]
      simp [List.append_assoc]

theorem splitChar_strJoin {c : Char} {parts : List Str} (hne : parts ≠ [])
    (hfree : ∀ x ∈ parts, c ∉ x) :
    splitChar c (strJoin [c] parts) = parts := by
  induction parts with
  | nil => exact absurd rfl hne
  | cons p rest ih =>
    cases rest with
    | nil =>
      simp only [strJoin]
      exact splitChar_of_not_mem (hfree p (by simp))
    | cons q qs =>
      rw [strJoin_cons₂]
      have hp : c ∉ p := hfree p (by simp)
      have e1 : p ++ [c] ++ strJoin [c] (q :: qs) = p ++ c :: strJoin [c] (q :: qs) := by
        simp
      rw [e1, splitChar_append_cons _ hp]
      rw [ih (by simp) (fun x hx => hfree x (List.mem_cons_of_mem _ hx))]

theorem strEndsWith_concat (c : Char) (x : Str) :
    strEndsWith [c] (x ++ [c]) = true := by
  simp [strEndsWith, strStartsWith, List.reverse_append]

theorem strEndsWith_single_decomp {c : Char} {s : Str}
    (h : strEndsWith [c] s = true) : ∃ x, s = x ++ [c] := by
  unfold strEndsWith at h
  rcases hr : s.reverse with _ | ⟨d, t⟩
  · rw [hr] at h; simp [strStartsWith] at h
  · rw [hr] at h
    simp only [List.reverse_cons, strStartsWith] at h
    have hd : d = c := by
      rcases Bool.and_eq_true .. |>.mp h with ⟨h1, _⟩
      exact ((beq_iff_eq ..).mp h1).symm
    refine ⟨t.reverse, ?_⟩
    have h2 := congrArg List.reverse hr
    simp at h2
    rw [h2, hd]

theorem splitChar_append_sep (c : Char) (x : Str) :
    splitChar c (x ++ [c]) = splitChar c x ++ [[]] := by
  induction x with
  | nil => simp [splitChar]
  | cons ch rest ih =>
    rw [List.cons_append, splitChar_cons_eq, ih, splitChar_cons_eq]
    rcases h : splitChar c rest with _ | ⟨seg, segs⟩
    · exact absurd h (splitChar_ne_nil c rest)
    · by_cases hc : ch = c <;> simp [hc]

theorem strJoin_concat {sep : Str} {ls : List Str} (h : ls ≠ []) (x : Str) :
    strJoin sep (ls ++ [x]) = strJoin sep ls ++ sep ++ x :=
  strJoin_append h (by simp)

theorem pySplitlines_join {ls : List Str} (hfree : ∀ l ∈ ls, '\n' ∉ l) :
    pySplitlines (strJoin (str "\n") ls ++ str "\n") =
      if ls = [] then [[]] else ls := by
  cases hls : ls with
  | nil =>
    simp only [hls, strJoin, List.nil_append]
    rfl
  | cons p rest =>
    rw [← hls]
    have hne : ls ≠ [] := by simp [hls]
    have hend : strEndsWith (str "\n") (strJoin (str "\n") ls ++ str "\n") = true := by
      exact strEndsWith_concat '\n' _
    have hnn : strJoin (str "\n") ls ++ str "\n" ≠ [] := by
      show strJoin (str "\n") ls ++ ['\n'] ≠ []
      simp
    unfold pySplitlines
    rw [if_neg hnn, if_pos hend]
    show ((splitChar '\n' (strJoin (str "\n") ls ++ ['\n'])).dropLast) = _
    rw [splitChar_append_sep]
    have hsplit : splitChar '\n' (strJoin ['\n'] ls) = ls := splitChar_strJoin hne hfree
    rw [show strJoin (str "\n") ls = strJoin ['\n'] ls from rfl, hsplit, if_neg hne]
    simp

theorem pySplitlines_ne_nil {s : Str} (h : s ≠ []) : pySplitlines s ≠ [] := by
  unfold pySplitlines
  rw [if_neg h]
  by_cases he : strEndsWith (str "\n") s = true
  · rw [if_pos he]
    rcases strEndsWith_single_decomp he with ⟨x, rfl⟩
    show (splitChar '\n' (x ++ ['\n'])).dropLast ≠ []
    rw [splitChar_append_sep]
    simp
    exact splitChar_ne_nil _ _
  · rw [if_neg he]
    exact splitChar_ne_nil _ _

theorem drop_spaces (n : Nat) (l : Str) : (spaces n ++ l).drop n = l := by
  simp [spaces, List.drop_append_of_le_length]

theorem pySplitlines_singleton_of_free {s : Str} (hs : s ≠ []) (hfree : '\n' ∉ s) :
    pySplitlines s = [s] := by
  unfold pySplitlines
  rw [if_neg hs]
  have hend : ¬ strEndsWith (str "\n") s = true := by
    intro h
    rcases strEndsWith_single_decomp h with ⟨x, rfl⟩
    exact hfree (by simp)
  rw [if_neg hend]
  exact splitChar_of_not_mem hfree

/-- C9: for every label and raw text, multi-line field formatting produces a
first line made of the base indent, the label, a colon and a space, and the
first text line; every subsequent text line is prefixed by exactly
(base indent + label length + 2) spaces; empty text yields the single line
with the bare label and colon and no trailing value. -/
theorem c9_format_multiline_field (label text : Str) (base : Nat) :
    (format_multiline_field label text base).length =
        (if text = [] then [[]] else pySplitlines text).length
    ∧ (format_multiline_field label text base).get? 0 =
        some (spaces base ++ label ++ str ": " ++
          ((if text = [] then [[]] else pySplitlines text).headD []))
    ∧ (∀ i : Nat, (format_multiline_field label text base).get? (i + 1) =
        ((if text = [] then [[]] else pySplitlines text).get? (i + 1)).map
          (fun cont => spaces (base + label.length + 2) ++ cont))
    ∧ (text = [] → format_multiline_field label text base =
        [spaces base ++ label ++ str ": "]) := by
  have hne : (if text = [] then [[]] else pySplitlines text) ≠ [] := by
    split
    · simp
    · exact pySplitlines_ne_nil (by assumption)
  rcases hp : (if text = [] then [[]] else pySplitlines text) with _ | ⟨p0, rest⟩
  · exact absurd hp hne
  · have hfmt : format_multiline_field label text base =
        (spaces base ++ label ++ str ": " ++ p0)
          :: rest.map (fun cont => spaces (base + label.length + 2) ++ cont) := by
      unfold format_multiline_field
      rw [hp]
    refine ⟨?_, ?_, ?_, ?_⟩
    · rw [hfmt]; simp
    · rw [hfmt]; simp
    · intro i
      rw [hfmt]
      simp [List.get?_map]
    · intro ht
      have hp2 : p0 :: rest = [([] : Str)] := by
        rw [← hp, if_pos ht]
      have hp0 : p0 = [] := by
        have := List.head_eq_of_cons_eq hp2; simpa using this
      have hrest : rest = [] := List.tail_eq_of_cons_eq hp2
      rw [hfmt, hp0, hrest]
      simp

/-- Witness for C9 at a concrete label and empty text. -/
theorem c9_witness :
    format_multiline_field (str "Description") (str "") 6 = [str "      Description: "] := by
  have h := (c9_format_multiline_field (str "Description") (str "") 6).2.2.2 rfl
  rw [h]; rfl

-- ### Lemmas about the greedy tag wrapper

theorem strJoin_ne_nil {sep : Str} {l : List Str} (h : l ≠ [])
    (helts : ∀ t ∈ l, t ≠ []) : strJoin sep l ≠ [] := by
  cases l with
  | nil => exact absurd rfl h
  | cons x xs =>
    cases xs with
    | nil => exact helts x (by simp)
    | cons y ys =>
      rw [strJoin_cons₂]
      have : x ≠ [] := helts x (by simp)
      simp [this]

theorem mem_strJoin {sep : Str} {l : List Str} {c : Char}
    (h : c ∈ strJoin sep l) : (∃ p ∈ l, c ∈ p) ∨ c ∈ sep := by
  induction l with
  | nil => simp [strJoin] at h
  | cons x xs ih =>
    cases xs with
    | nil =>
      simp only [strJoin] at h
      exact Or.inl ⟨x, by simp, h⟩
    | cons y ys =>
      rw [strJoin_cons₂] at h
      rcases List.mem_append.mp h with h1 | h2
      · rcases List.mem_append.mp h1 with h3 | h4
        · exact Or.inl ⟨x, by simp, h3⟩
        · exact Or.inr h4
      · rcases ih h2 with ⟨p, hp, hc⟩ | hs
        · exact Or.inl ⟨p, by simp [hp], hc⟩
        · exact Or.inr hs

theorem token_le_strJoin {sep : Str} {l : List Str} {t : Str} (h : t ∈ l) :
    t.length ≤ (strJoin sep l).length := by
  induction l with
  | nil => simp at h
  | cons x xs ih =>
    cases xs with
    | nil =>
      rcases List.mem_singleton.mp h with rfl
      simp [strJoin]
    | cons y ys =>
      rw [strJoin_cons₂]
      rcases List.mem_cons.mp h with rfl | h2
      · simp
      · have := ih h2
        simp only [List.length_append]
        omega

theorem strJoin_map_strJoin {sep : Str} {runs : List (List Str)}
    (hne : runs ≠ []) (helts : ∀ r ∈ runs, r ≠ []) :
    strJoin sep (runs.map (strJoin sep)) = strJoin sep runs.join := by
  induction runs with
  | nil => exact absurd rfl hne
  | cons r rs ih =>
    cases rs with
    | nil => simp [strJoin]
    | cons r2 rs2 =>
      have h2 := ih (by simp) (fun x hx => helts x (List.mem_cons_of_mem _ hx))
      simp only [List.map_cons] at h2 ⊢
      rw [strJoin_cons₂, h2]
      have hj : ((r2 :: rs2) : List (List Str)).join ≠ [] := by
        have : r2 ≠ [] := helts r2 (by simp)
        cases r2 with
        | nil => exact absurd rfl this
        | cons a as_ => simp [List.join]
      have hr : r ≠ [] := helts r (by simp)
      rw [show ((r :: r2 :: rs2) : List (List Str)).join = r ++ (r2 :: rs2).join by simp,
        strJoin_append hr hj]

/-- The main invariant of the greedy packing loop: starting with a non-empty
current run, the produced lines are exactly the delimiter-joined runs of a
partition of the tokens, a run holding an over-wide token is a singleton. -/
theorem greedyAux_spec (delim : Str) (w : Nat) :
    ∀ (ts : List Str) (cur : List Str), cur ≠ [] →
    (∀ t ∈ cur ++ ts, t ≠ []) →
    (∀ t ∈ cur, t.length > w → cur = [t]) →
    ∃ runs : List (List Str), runs ≠ [] ∧ (∀ r ∈ runs, r ≠ []) ∧
      runs.join = cur ++ ts ∧
      greedyAux delim w (strJoin delim cur) ts = runs.map (strJoin delim) ∧
      (∀ r ∈ runs, ∀ t ∈ r, t.length > w → r = [t]) := by
  intro ts
  induction ts with
  | nil =>
    intro cur hcur helts hover
    refine ⟨[cur], by simp, ?_, by simp, ?_, ?_⟩
    · intro r hr
      rcases List.mem_singleton.mp hr with rfl
      exact hcur
    · have hjoin : strJoin delim cur ≠ [] :=
        strJoin_ne_nil hcur (fun t ht => helts t (by simp [ht]))
      simp [greedyAux, hjoin]
    · intro r hr
      rcases List.mem_singleton.mp hr with rfl
      exact hover
  | cons t ts' ih =>
    intro cur hcur helts hover
    have hjoin : strJoin delim cur ≠ [] :=
      strJoin_ne_nil hcur (fun x hx => helts x (by simp [hx]))
    have hcand : (if strJoin delim cur = [] then t
        else strJoin delim cur ++ delim ++ t) = strJoin delim (cur ++ [t]) := by
      rw [if_neg hjoin, strJoin_concat hcur]
    by_cases hcond : (strJoin delim (cur ++ [t])).length > w
    · -- push the current line, start a new one with this token
      have step : greedyAux delim w (strJoin delim cur) (t :: ts') =
          strJoin delim cur :: greedyAux delim w t ts' := by
        simp only [greedyAux, hcand]
        rw [if_pos ⟨hcond, hjoin⟩]
      have ht : greedyAux delim w t ts' = greedyAux delim w (strJoin delim [t]) ts' := rfl
      rcases ih [t] (by simp)
          (by intro x hx
              rcases List.mem_append.mp hx with hx1 | hx2
              · rcases List.mem_singleton.mp hx1 with rfl
                exact helts x (by simp)
              · exact helts x (by simp [hx2]))
          (by intro x hx _; rcases List.mem_singleton.mp hx with rfl; rfl)
        with ⟨runs', hne', helts', hjoin', heq', hover'⟩
      refine ⟨cur :: runs', by simp, ?_, ?_, ?_, ?_⟩
      · intro r hr
        rcases List.mem_cons.mp hr with rfl | hr2
        · exact hcur
        · exact helts' r hr2
      · simp [hjoin']
      · rw [step, ht, heq', List.map_cons]
      · intro r hr
        rcases List.mem_cons.mp hr with rfl | hr2
        · exact hover
        · exact hover' r hr2
    · -- extend the current line with this token
      have step : greedyAux delim w (strJoin delim cur) (t :: ts') =
          greedyAux delim w (strJoin delim (cur ++ [t])) ts' := by
        simp only [greedyAux, hcand]
        rw [if_neg (by intro hcontra; exact hcond hcontra.1)]
      have hbound : ∀ x ∈ cur ++ [t], x.length > w → (cur ++ [t]) = [x] := by
        intro x hx hxw
        have hle : x.length ≤ (strJoin delim (cur ++ [t])).length :=
          token_le_strJoin hx
        omega
      rcases ih (cur ++ [t]) (by simp)
          (by intro x hx
              rcases List.mem_append.mp hx with hx1 | hx2
              · rcases List.mem_append.mp hx1 with hx3 | hx4
                · exact helts x (by simp [hx3])
                · rcases List.mem_singleton.mp hx4 with rfl
                  exact helts x (by simp)
              · exact helts x (by simp [hx2]))
          hbound
        with ⟨runs', hne', helts', hjoin', heq', hover'⟩
      refine ⟨runs', hne', helts', ?_, ?_, hover'⟩
      · rw [hjoin']; simp
      · rw [step, heq']

theorem splitChar_append_free {c : Char} {a s : Str} {seg : Str} {segs : List Str}
    (ha : c ∉ a) (hs : splitChar c s = seg :: segs) :
    splitChar c (a ++ s) = (a ++ seg) :: segs := by
  induction a with
  | nil => simpa using hs
  | cons ch a' ih =>
    have hch : ch ≠ c := by rintro rfl; exact ha (List.mem_cons_self _ _)
    have ha' : c ∉ a' := fun hr => ha (List.mem_cons_of_mem _ hr)
    have ihv := ih ha'
    rw [List.cons_append, splitChar_cons_of c ch ihv, if_neg (by simp [hch])]
    simp

theorem splitChar_join_indent {ind : Str} (hind : '\n' ∉ ind) :
    ∀ (l0 : Str) (lrest : List Str), '\n' ∉ l0 → (∀ l ∈ lrest, '\n' ∉ l) →
    splitChar '\n' (strJoin ('\n' :: ind) (l0 :: lrest)) =
      l0 :: lrest.map (fun l => ind ++ l) := by
  intro l0 lrest
  induction lrest generalizing l0 with
  | nil =>
    intro h0 _
    simp only [strJoin]
    rw [splitChar_of_not_mem h0]
    simp
  | cons r rs ih =>
    intro h0 hrest
    rw [strJoin_cons₂]
    have e1 : l0 ++ ('\n' :: ind) ++ strJoin ('\n' :: ind) (r :: rs) =
        l0 ++ '\n' :: (ind ++ strJoin ('\n' :: ind) (r :: rs)) := by simp
    rw [e1, splitChar_append_cons _ h0]
    have hr : '\n' ∉ r := hrest r (by simp)
    have hrs : ∀ l ∈ rs, '\n' ∉ l := fun l hl => hrest l (by simp [hl])
    have ihv := ih r hr hrs
    rw [splitChar_append_free hind ihv]
    simp

theorem mem_mkTokens {tags : List Str} {tok : Str} (h : tok ∈ mkTokens tags) :
    ∃ tag ∈ tags, tok = tag ∨ tok = tag ++ [','] := by
  induction tags with
  | nil => simp [mkTokens] at h
  | cons t rest ih =>
    cases rest with
    | nil =>
      rcases List.mem_singleton.mp h with rfl
      exact ⟨tok, by simp, Or.inl rfl⟩
    | cons t2 ts =>
      rw [show mkTokens (t :: t2 :: ts) = (t ++ [',']) :: mkTokens (t2 :: ts) from rfl] at h
      rcases List.mem_cons.mp h with rfl | h2
      · exact ⟨t, by simp, Or.inr rfl⟩
      · rcases ih h2 with ⟨tag, htag, hor⟩
        exact ⟨tag, by simp [htag], hor⟩

theorem stripTrailingComma_concat (t : Str) : stripTrailingComma (t ++ [',']) = t := by
  unfold stripTrailingComma
  rw [if_pos (by exact strEndsWith_concat ',' t)]
  simp

theorem stripTrailingComma_of_free {t : Str} (h : ',' ∉ t) :
    stripTrailingComma t = t := by
  unfold stripTrailingComma
  rw [if_neg ?_]
  intro hc
  rcases strEndsWith_single_decomp hc with ⟨x, rfl⟩
  exact h (by simp)

theorem mkTokens_map_strip {tags : List Str} (h : ∀ t ∈ tags, ',' ∉ t) :
    (mkTokens tags).map stripTrailingComma = tags := by
  induction tags with
  | nil => rfl
  | cons t rest ih =>
    cases rest with
    | nil =>
      simp only [mkTokens, List.map_cons, List.map_nil]
      rw [stripTrailingComma_of_free (h t (by simp))]
    | cons t2 ts =>
      rw [show mkTokens (t :: t2 :: ts) = (t ++ [',']) :: mkTokens (t2 :: ts) from rfl,
        List.map_cons, stripTrailingComma_concat,
        ih (fun x hx => h x (by simp [List.mem_cons.mp hx]))]

theorem mkTokens_ne_nil {tags : List Str} (h : tags ≠ []) : mkTokens tags ≠ [] := by
  cases tags with
  | nil => exact absurd rfl h
  | cons t rest => cases rest <;> simp [mkTokens]

theorem mkTokens_flat {tags : List Str}
    (hprop : ∀ t ∈ tags, t ≠ [] ∧ ' ' ∉ t ∧ ',' ∉ t ∧ '\n' ∉ t) :
    ∀ tok ∈ mkTokens tags, tok ≠ [] ∧ ' ' ∉ tok ∧ '\n' ∉ tok := by
  intro tok htok
  rcases mem_mkTokens htok with ⟨tag, htag, hor⟩
  rcases hprop tag htag with ⟨h1, h2, _h3, h4⟩
  rcases hor with rfl | rfl
  · exact ⟨h1, h2, h4⟩
  · refine ⟨by simp, ?_, ?_⟩
    · intro hmem
      rcases List.mem_append.mp hmem with hx | hx
      · exact h2 hx
      · simp at hx
    · intro hmem
      rcases List.mem_append.mp hmem with hx | hx
      · exact h4 hx
      · simp at hx

theorem unwrap_join_tokens {tags : List Str} (ind : Nat) (hne : tags ≠ [])
    (hprop : ∀ t ∈ tags, t ≠ [] ∧ ' ' ∉ t ∧ ',' ∉ t ∧ '\n' ∉ t) :
    unwrapTests ind (strJoin (str " ") (mkTokens tags)) = tags := by
  have htok := mkTokens_flat hprop
  have htokne : mkTokens tags ≠ [] := mkTokens_ne_nil hne
  have hout : '\n' ∉ strJoin (str " ") (mkTokens tags) := by
    intro hm
    rcases mem_strJoin hm with ⟨p, hp, hc⟩ | hsep
    · exact (htok p hp).2.2 hc
    · simp [str] at hsep
  unfold unwrapTests
  rw [splitChar_of_not_mem hout]
  simp only [List.map_nil]
  rw [show strJoin (str " ") [strJoin (str " ") (mkTokens tags)] =
    strJoin (str " ") (mkTokens tags) from rfl]
  have hsplit : splitChar ' ' (strJoin [' '] (mkTokens tags)) = mkTokens tags :=
    splitChar_strJoin htokne (fun x hx => (htok x hx).2.1)
  rw [show strJoin (str " ") (mkTokens tags) = strJoin [' '] (mkTokens tags) from rfl,
    hsplit]
  exact mkTokens_map_strip (fun t ht => (hprop t ht).2.2.1)

theorem split_join_tokens {tags : List Str} (hne : tags ≠ [])
    (hprop : ∀ t ∈ tags, t ≠ [] ∧ ' ' ∉ t ∧ ',' ∉ t ∧ '\n' ∉ t) :
    (splitChar ' ' (strJoin (str " ") (mkTokens tags))).map stripTrailingComma = tags := by
  have htok := mkTokens_flat hprop
  have htokne : mkTokens tags ≠ [] := mkTokens_ne_nil hne
  have hsplit : splitChar ' ' (strJoin [' '] (mkTokens tags)) = mkTokens tags :=
    splitChar_strJoin htokne (fun x hx => (htok x hx).2.1)
  rw [show strJoin (str " ") (mkTokens tags) = strJoin [' '] (mkTokens tags) from rfl,
    hsplit]
  exact mkTokens_map_strip (fun t ht => (hprop t ht).2.2.1)

/-- C6: for every non-empty tag list of well-formed tags, un-wrapping the
byte output of `format_tests_value` (joining continuation lines after
removing the continuation indent, splitting on the delimiter and stripping
the trailing separator commas) reproduces the original tag list; the
wrapping is greedy left-to-right over whole tokens (each output line is the
delimiter-join of a consecutive run of tokens, never breaking a token), and
a single token wider than the maximum width occupies a line by itself. -/
theorem c6_format_tests_roundtrip (tags : List Str) (w ind : Nat)
    (hne : tags ≠ [])
    (hprop : ∀ t ∈ tags, t ≠ [] ∧ ' ' ∉ t ∧ ',' ∉ t ∧ '\n' ∉ t) :
    unwrapTests ind (format_tests_value tags (str " ") w ind) = tags
    ∧ ∃ runs : List (List Str), runs ≠ [] ∧ (∀ r ∈ runs, r ≠ []) ∧
        runs.join = mkTokens tags ∧
        greedy (str " ") w (mkTokens tags) = runs.map (strJoin (str " ")) ∧
        (∀ r ∈ runs, ∀ t ∈ r, t.length > w → r = [t]) := by
  have htok := mkTokens_flat hprop
  have htokne : mkTokens tags ≠ [] := mkTokens_ne_nil hne
  obtain ⟨t0, ts, htoks⟩ : ∃ a b, mkTokens tags = a :: b := by
    rcases h : mkTokens tags with _ | ⟨a, b⟩
    · exact absurd h htokne
    · exact ⟨a, b, rfl⟩
  -- the greedy loop on the token list
  have hstep : greedy (str " ") w (t0 :: ts) = greedyAux (str " ") w t0 ts := by
    simp only [greedy, greedyAux]
    rw [if_neg (by simp)]
    simp
  have hspec := greedyAux_spec (str " ") w ts [t0] (by simp)
      (by intro x hx
          have : x ∈ mkTokens tags := by rw [htoks]; simpa using hx
          exact (htok x this).1)
      (by intro x hx _; rcases List.mem_singleton.mp hx with rfl; rfl)
  rcases hspec with ⟨runs, hrne, hrelts, hrjoin, hreq, hrover⟩
  have hjoin_toks : runs.join = mkTokens tags := by rw [hrjoin, htoks]; rfl
  have hjoin_toks2 : runs.join = t0 :: ts := by rw [hjoin_toks, htoks]
  have hgr : greedy (str " ") w (mkTokens tags) = runs.map (strJoin (str " ")) := by
    rw [htoks, hstep]
    exact hreq
  refine ⟨?_, runs, hrne, hrelts, hjoin_toks, hgr, hrover⟩
  -- the round trip, by cases on the branches of format_tests_value
  by_cases hshort : (strJoin (str " ") (mkTokens tags)).length ≤ w
  · have hfmt : format_tests_value tags (str " ") w ind =
        strJoin (str " ") (mkTokens tags) := by
      unfold format_tests_value
      rw [if_pos hshort]
    rw [hfmt]
    exact unwrap_join_tokens ind hne hprop
  · have hlines_eq : greedy (str " ") w (mkTokens tags) = runs.map (strJoin (str " ")) := hgr
    by_cases hone : (runs.map (strJoin (str " "))).length ≤ 1
    · -- a single packed line holds all tokens
      rcases runs with _ | ⟨r0, rrest⟩
      · exact absurd rfl hrne
      · rcases rrest with _ | ⟨r1, rrest2⟩
        · have hr0 : r0 = mkTokens tags := by simpa using hjoin_toks
          have hfmt : format_tests_value tags (str " ") w ind =
              strJoin (str " ") (mkTokens tags) := by
            unfold format_tests_value
            rw [if_neg hshort, hlines_eq]
            simp [hr0]
          rw [hfmt]
          exact unwrap_join_tokens ind hne hprop
        · simp at hone
    · -- genuinely wrapped output
      have hfmt : format_tests_value tags (str " ") w ind =
          strJoin ('\n' :: spaces ind) (runs.map (strJoin (str " "))) := by
        unfold format_tests_value
        rw [if_neg hshort, hlines_eq, if_neg hone]
      have hlfree : ∀ l ∈ runs.map (strJoin (str " ")), '\n' ∉ l := by
        intro l hl hmem
        rcases List.mem_map.mp hl with ⟨r, hr, rfl⟩
        rcases mem_strJoin hmem with ⟨p, hp, hc⟩ | hsep
        · have : p ∈ mkTokens tags := by
            rw [← hjoin_toks]
            exact List.mem_join.mpr ⟨r, hr, hp⟩
          exact (htok p this).2.2 hc
        · simp [str] at hsep
      rcases hlns : runs.map (strJoin (str " ")) with _ | ⟨l0, lrest⟩
      · rcases runs with _ | _
        · exact absurd rfl hrne
        · simp at hlns
      · have hindfree : '\n' ∉ spaces ind := by
          intro hmem
          rcases List.mem_replicate.mp hmem with ⟨_, hc⟩
          exact absurd hc (by decide)
        have hsplitnl :
            splitChar '\n' (strJoin ('\n' :: spaces ind) (l0 :: lrest)) =
              l0 :: lrest.map (fun l => spaces ind ++ l) :=
          splitChar_join_indent hindfree l0 lrest
            (hlfree l0 (by rw [hlns]; simp))
            (fun l hl => hlfree l (by rw [hlns]; simp [hl]))
        rw [hfmt, hlns]
        unfold unwrapTests
        rw [hsplitnl]
        have hrestored : (lrest.map (fun l => spaces ind ++ l)).map
            (fun l => l.drop ind) = lrest := by
          rw [List.map_map]
          have h1 : ∀ l ∈ lrest,
              ((fun l => List.drop ind l) ∘ fun l => spaces ind ++ l) l = id l := by
            intro l _
            simp only [Function.comp, id]
            exact drop_spaces ind l
          rw [List.map_congr_left h1, List.map_id]
        simp only [hrestored]
        have hjoin_lines : strJoin (str " ") (l0 :: lrest) =
            strJoin (str " ") (mkTokens tags) := by
          rw [← hlns, show str " " = [' '] from rfl, ← hjoin_toks]
          exact strJoin_map_strJoin hrne hrelts
        rw [hjoin_lines]
        exact split_join_tokens hne hprop

/-- Witness for C6: a concrete wrapped tag list whose un-wrapped output
reproduces the tags. -/
theorem c6_witness :
    unwrapTests 3 (format_tests_value [str "AAAA", str "BBBB", str "CCCC"] (str " ") 10 3) =
      [str "AAAA", str "BBBB", str "CCCC"]
    ∧ format_tests_value [str "AAAA", str "BBBB", str "CCCC"] (str " ") 10 3 =
      str "AAAA,\n   BBBB, CCCC" :=
  ⟨(c6_format_tests_roundtrip [str "AAAA", str "BBBB", str "CCCC"] 10 3 (by decide)
      (by decide)).1, by rfl⟩

-- ### Lemmas about chunking and identifier assignment

theorem chunks7Fuel_irrel : ∀ (n m : Nat) (xs : List Str), xs.length ≤ n →
    xs.length ≤ m → chunks7Fuel n xs = chunks7Fuel m xs := by
  intro n
  induction n with
  | zero =>
    intro m xs hn _
    have : xs = [] := by
      cases xs with
      | nil => rfl
      | cons a as_ => simp at hn
    subst this
    cases m <;> rfl
  | succ n ih =>
    intro m xs hn hm
    cases xs with
    | nil => cases m <;> rfl
    | cons a as_ =>
      cases m with
      | zero => simp at hm
      | succ m =>
        simp only [chunks7Fuel]
        have h1 : ((a :: as_).drop 7).length ≤ n := by
          simp only [List.length_drop, List.length_cons]
          simp at hn
          omega
        have h2 : ((a :: as_).drop 7).length ≤ m := by
          simp only [List.length_drop, List.length_cons]
          simp at hm
          omega
        rw [ih m ((a :: as_).drop 7) h1 h2]

theorem chunks7_nil : chunks7 [] = [] := rfl

theorem chunks7_cons {xs : List Str} (h : xs ≠ []) :
    chunks7 xs = xs.take 7 :: chunks7 (xs.drop 7) := by
  cases xs with
  | nil => exact absurd rfl h
  | cons a as_ =>
    show chunks7Fuel (as_.length + 1) (a :: as_) = _
    simp only [chunks7Fuel]
    rw [chunks7Fuel_irrel as_.length ((a :: as_).drop 7).length ((a :: as_).drop 7)
      (by simp) (le_refl _)]
    rfl

theorem chunks7_length : ∀ (n : Nat) (xs : List Str), xs.length ≤ n →
    (chunks7 xs).length = (xs.length + 6) / 7 := by
  intro n
  induction n with
  | zero =>
    intro xs hn
    have : xs = [] := by
      cases xs with
      | nil => rfl
      | cons a as_ => simp at hn
    subst this
    rfl
  | succ n ih =>
    intro xs hn
    by_cases hx : xs = []
    · subst hx; rfl
    · rw [chunks7_cons hx, List.length_cons,
        ih (xs.drop 7) (by simp only [List.length_drop]; omega), List.length_drop]
      have hpos : 1 ≤ xs.length := by
        cases xs with
        | nil => exact absurd rfl hx
        | cons a as_ => simp
      omega

theorem chunks7_join : ∀ (n : Nat) (xs : List Str), xs.length ≤ n →
    (chunks7 xs).join = xs := by
  intro n
  induction n with
  | zero =>
    intro xs hn
    have : xs = [] := by
      cases xs with
      | nil => rfl
      | cons a as_ => simp at hn
    subst this
    rfl
  | succ n ih =>
    intro xs hn
    by_cases hx : xs = []
    · subst hx; rfl
    · rw [chunks7_cons hx]
      show List.take 7 xs ++ (chunks7 (xs.drop 7)).join = xs
      rw [ih (xs.drop 7) (by simp only [List.length_drop]; omega)]
      exact List.take_append_drop 7 xs

theorem chunks7_chunk_le : ∀ (n : Nat) (xs : List Str), xs.length ≤ n →
    ∀ c ∈ chunks7 xs, c.length ≤ 7 := by
  intro n
  induction n with
  | zero =>
    intro xs hn c hc
    have : xs = [] := by
      cases xs with
      | nil => rfl
      | cons a as_ => simp at hn
    subst this
    simp [chunks7_nil] at hc
  | succ n ih =>
    intro xs hn c hc
    by_cases hx : xs = []
    · subst hx; simp [chunks7_nil] at hc
    · rw [chunks7_cons hx] at hc
      rcases List.mem_cons.mp hc with rfl | hc2
      · simp [List.length_take]
      · exact ih (xs.drop 7) (by simp only [List.length_drop]; omega) c hc2

theorem recordChunks_length (reqs : List Str) :
    (recordChunks reqs).length = max 1 ((reqs.length + 6) / 7) := by
  unfold recordChunks
  by_cases h : reqs = []
  · subst h; rfl
  · rw [if_neg h, chunks7_length reqs.length reqs (le_refl _)]
    have hpos : 1 ≤ reqs.length := by
      cases reqs with
      | nil => exact absurd rfl h
      | cons a as_ => simp
    omega

theorem recordChunks_join (reqs : List Str) : (recordChunks reqs).join = reqs := by
  unfold recordChunks
  by_cases h : reqs = []
  · subst h; rfl
  · rw [if_neg h]
    exact chunks7_join reqs.length reqs (le_refl _)

theorem recordChunks_chunk_le (reqs : List Str) :
    ∀ c ∈ recordChunks reqs, c.length ≤ 7 := by
  unfold recordChunks
  by_cases h : reqs = []
  · subst h; intro c hc; simp at hc; simp [hc]
  · rw [if_neg h]
    exact chunks7_chunk_le reqs.length reqs (le_refl _)

theorem natRange_get? : ∀ (n c i : Nat),
    (natRange c n).get? i = if i < n then some (c + i) else none := by
  intro n
  induction n with
  | zero => intro c i; simp [natRange]
  | succ n ih =>
    intro c i
    cases i with
    | zero => simp [natRange]
    | succ j =>
      simp only [natRange, List.get?_cons_succ, ih (c + 1) j]
      by_cases hj : j < n
      · rw [if_pos hj, if_pos (by omega)]
        congr 1
        omega
      · rw [if_neg hj, if_neg (by omega)]

theorem natRange_append : ∀ (m : Nat) (c n : Nat),
    natRange c (m + n) = natRange c m ++ natRange (c + m) n := by
  intro m
  induction m with
  | zero => intro c n; simp [natRange]
  | succ m ih =>
    intro c n
    have e : m + 1 + n = (m + n) + 1 := by omega
    rw [e]
    simp only [natRange, List.cons_append]
    rw [ih (c + 1) n]
    have e2 : c + 1 + m = c + (m + 1) := by omega
    rw [e2]

theorem natRange_length : ∀ (n c : Nat), (natRange c n).length = n := by
  intro n
  induction n with
  | zero => intro c; rfl
  | succ n ih => intro c; simp [natRange, ih]

theorem buildSubstepsAux_get (p : Str) (hdr : TscHeader) (dl il ol : List Str) :
    ∀ (chunks : List (List Str)) (counter idx i : Nat),
      (buildSubstepsAux p hdr dl il ol counter idx chunks).1.get? i =
        (chunks.get? i).map (fun chunk =>
          ⟨idx + i, counter + i,
           if chunk ≠ [] then
             str "      :tests: " ++ format_tests_value chunk (str " ") 120 14
           else (build_tests_line p hdr).1,
           dl, if idx + i = 1 then il else [], if idx + i = 1 then ol else []⟩) := by
  intro chunks
  induction chunks with
  | nil => intro counter idx i; simp [buildSubstepsAux]
  | cons c cs ih =>
    intro counter idx i
    cases i with
    | zero =>
      simp only [buildSubstepsAux, List.get?_cons_zero, Option.map_some', Nat.add_zero]
      split_ifs <;> rfl
    | succ j =>
      simp only [buildSubstepsAux, List.get?_cons_succ]
      rw [ih (counter + 1) (idx + 1) j]
      rcases hcs : cs.get? j with _ | ⟨chunk⟩
      · simp
      · simp only [Option.map_some']
        have e1 : idx + 1 + j = idx + (j + 1) := by omega
        have e2 : counter + 1 + j = counter + (j + 1) := by omega
        rw [e1, e2]

theorem buildSubstepsAux_len (p : Str) (hdr : TscHeader) (dl il ol : List Str) :
    ∀ (chunks : List (List Str)) (counter idx : Nat),
      (buildSubstepsAux p hdr dl il ol counter idx chunks).1.length = chunks.length ∧
      (buildSubstepsAux p hdr dl il ol counter idx chunks).2.1 =
        counter + chunks.length ∧
      (buildSubstepsAux p hdr dl il ol counter idx chunks).1.map (fun ss => ss.id) =
        natRange counter chunks.length := by
  intro chunks
  induction chunks with
  | nil => intro counter idx; simp [buildSubstepsAux, natRange]
  | cons c cs ih =>
    intro counter idx
    rcases ih (counter + 1) (idx + 1) with ⟨h1, h2, h3⟩
    refine ⟨?_, ?_, ?_⟩
    · simp [buildSubstepsAux, h1]
    · simp only [buildSubstepsAux, h2, List.length_cons]
      omega
    · simp only [buildSubstepsAux, List.map_cons, h3, List.length_cons, natRange]

/-- C1: per file record, the requirement tags are chunked into consecutive
chunks of at most 7 tags whose concatenation is the tag list; the record
yields exactly max(1, ceil(tagCount / 7)) numeric sub-steps (a record with
zero tags yields one empty chunk); every sub-step repeats the Description
block and only the first sub-step carries the Input and Output blocks. -/
theorem c1_chunk_split (r : FileRec) (counter : Nat) :
    (buildStep r counter).1.substeps.length =
        max 1 ((r.hdr.requirements.length + 6) / 7)
    ∧ (recordChunks r.hdr.requirements).join = r.hdr.requirements
    ∧ (∀ c ∈ recordChunks r.hdr.requirements, c.length ≤ 7)
    ∧ (r.hdr.requirements = [] → recordChunks r.hdr.requirements = [[]])
    ∧ (buildStep r counter).1.substeps.length =
        (recordChunks r.hdr.requirements).length
    ∧ (∀ i, ((buildStep r counter).1.substeps.get? i).map (fun ss => ss.index) =
        ((recordChunks r.hdr.requirements).get? i).map (fun _ => i + 1))
    ∧ (∀ i, ((buildStep r counter).1.substeps.get? i).map (fun ss => ss.descLines) =
        ((recordChunks r.hdr.requirements).get? i).map (fun _ =>
          (build_field_lines (str "Description") r.hdr.description r.hdr.descLine r.name).1))
    ∧ (∀ i, ((buildStep r counter).1.substeps.get? i).map (fun ss => ss.inputLines) =
        ((recordChunks r.hdr.requirements).get? i).map (fun _ =>
          if i = 0 then
            (build_field_lines (str "Input") r.hdr.inputText r.hdr.inputLine r.name).1
          else []))
    ∧ (∀ i, ((buildStep r counter).1.substeps.get? i).map (fun ss => ss.outputLines) =
        ((recordChunks r.hdr.requirements).get? i).map (fun _ =>
          if i = 0 then
            (build_field_lines (str "Output") r.hdr.outputText r.hdr.outputLine r.name).1
          else [])) := by
  have hsub : (buildStep r counter).1.substeps =
      (buildSubstepsAux r.name r.hdr
        (build_field_lines (str "Description") r.hdr.description r.hdr.descLine r.name).1
        (build_field_lines (str "Input") r.hdr.inputText r.hdr.inputLine r.name).1
        (build_field_lines (str "Output") r.hdr.outputText r.hdr.outputLine r.name).1
        (counter + 1) 1 (recordChunks r.hdr.requirements)).1 := rfl
  have hlen := (buildSubstepsAux_len r.name r.hdr
    (build_field_lines (str "Description") r.hdr.description r.hdr.descLine r.name).1
    (build_field_lines (str "Input") r.hdr.inputText r.hdr.inputLine r.name).1
    (build_field_lines (str "Output") r.hdr.outputText r.hdr.outputLine r.name).1
    (recordChunks r.hdr.requirements) (counter + 1) 1).1
  have hget := buildSubstepsAux_get r.name r.hdr
    (build_field_lines (str "Description") r.hdr.description r.hdr.descLine r.name).1
    (build_field_lines (str "Input") r.hdr.inputText r.hdr.inputLine r.name).1
    (build_field_lines (str "Output") r.hdr.outputText r.hdr.outputLine r.name).1
    (recordChunks r.hdr.requirements) (counter + 1) 1
  refine ⟨?_, recordChunks_join _, recordChunks_chunk_le _, ?_, ?_, ?_, ?_, ?_, ?_⟩
  · rw [hsub, hlen, recordChunks_length]
  · intro h; unfold recordChunks; rw [if_pos h]
  · rw [hsub, hlen]
  · intro i
    rw [hsub, hget i, Option.map_map]
    rcases h : (recordChunks r.hdr.requirements).get? i with _ | ⟨chunk⟩
    · rfl
    · simp only [Option.map_some', Function.comp]
      congr 1
      omega
  · intro i
    rw [hsub, hget i, Option.map_map]
    rcases h : (recordChunks r.hdr.requirements).get? i with _ | ⟨chunk⟩
    · rfl
    · simp only [Option.map_some', Function.comp]
  · intro i
    rw [hsub, hget i, Option.map_map]
    rcases h : (recordChunks r.hdr.requirements).get? i with _ | ⟨chunk⟩
    · rfl
    · simp only [Option.map_some', Function.comp]
      congr 1
      by_cases hi : i = 0
      · subst hi; simp
      · rw [if_neg (by omega), if_neg hi]
  · intro i
    rw [hsub, hget i, Option.map_map]
    rcases h : (recordChunks r.hdr.requirements).get? i with _ | ⟨chunk⟩
    · rfl
    · simp only [Option.map_some', Function.comp]
      congr 1
      by_cases hi : i = 0
      · subst hi; simp
      · rw [if_neg (by omega), if_neg hi]

/-- Witness for C1: a record with 9 tags yields exactly 2 numeric sub-steps
(chunks of sizes 7 and 2), and only the first carries the Input block. -/
theorem c1_witness :
    (buildStep ⟨str "Bogus_Compile_N.tsc", str "Bogus_Compile_N",
      ⟨str "d", str "i", str "o",
       [str "A-1", str "A-2", str "A-3", str "A-4", str "A-5", str "A-6", str "A-7",
        str "A-8", str "A-9"], 1, 3, 5, 7⟩⟩ 1).1.substeps.length = 2
    ∧ ((buildStep ⟨str "Bogus_Compile_N.tsc", str "Bogus_Compile_N",
      ⟨str "d", str "i", str "o",
       [str "A-1", str "A-2", str "A-3", str "A-4", str "A-5", str "A-6", str "A-7",
        str "A-8", str "A-9"], 1, 3, 5, 7⟩⟩ 1).1.substeps.get? 1).map
        (fun ss => ss.inputLines) = some [] := by
  constructor
  · have h := (c1_chunk_split ⟨str "Bogus_Compile_N.tsc", str "Bogus_Compile_N",
      ⟨str "d", str "i", str "o",
       [str "A-1", str "A-2", str "A-3", str "A-4", str "A-5", str "A-6", str "A-7",
        str "A-8", str "A-9"], 1, 3, 5, 7⟩⟩ 1).1
    rw [h]
    rfl
  · have h := (c1_chunk_split ⟨str "Bogus_Compile_N.tsc", str "Bogus_Compile_N",
      ⟨str "d", str "i", str "o",
       [str "A-1", str "A-2", str "A-3", str "A-4", str "A-5", str "A-6", str "A-7",
        str "A-8", str "A-9"], 1, 3, 5, 7⟩⟩ 1).2.2.2.2.2.2.2.1 1
    rw [h]
    rfl

theorem buildStep_ids (r : FileRec) (counter : Nat) :
    (buildStep r counter).1.id1 :: (buildStep r counter).1.substeps.map (fun ss => ss.id) =
      natRange counter (1 + (recordChunks r.hdr.requirements).length)
    ∧ (buildStep r counter).2.1 =
      counter + (1 + (recordChunks r.hdr.requirements).length) := by
  have h := buildSubstepsAux_len r.name r.hdr
    (build_field_lines (str "Description") r.hdr.description r.hdr.descLine r.name).1
    (build_field_lines (str "Input") r.hdr.inputText r.hdr.inputLine r.name).1
    (build_field_lines (str "Output") r.hdr.outputText r.hdr.outputLine r.name).1
    (recordChunks r.hdr.requirements) (counter + 1) 1
  constructor
  · have e : 1 + (recordChunks r.hdr.requirements).length =
        (recordChunks r.hdr.requirements).length + 1 := by omega
    rw [e]
    show counter :: _ = _
    simp only [natRange]
    exact congrArg (counter :: ·) h.2.2
  · show (buildSubstepsAux r.name r.hdr _ _ _ (counter + 1) 1
      (recordChunks r.hdr.requirements)).2.1 = _
    rw [h.2.1]
    omega

theorem buildSteps_ids : ∀ (records : List FileRec) (counter : Nat),
    idsOfSteps (buildSteps counter records).1 =
      natRange counter
        ((records.map (fun r => 1 + (recordChunks r.hdr.requirements).length)).sum)
    ∧ (buildSteps counter records).2.1 =
      counter + ((records.map (fun r => 1 + (recordChunks r.hdr.requirements).length)).sum) := by
  intro records
  induction records with
  | nil => intro counter; exact ⟨rfl, rfl⟩
  | cons r rs ih =>
    intro counter
    have hstep := buildStep_ids r counter
    have hrest := ih (buildStep r counter).2.1
    constructor
    · show ((buildStep r counter).1.id1 ::
          (buildStep r counter).1.substeps.map (fun ss => ss.id)) ++
          idsOfSteps (buildSteps (buildStep r counter).2.1 rs).1 = _
      rw [show ((r :: rs).map (fun r => 1 + (recordChunks r.hdr.requirements).length)).sum =
        (1 + (recordChunks r.hdr.requirements).length) +
          ((rs.map (fun r => 1 + (recordChunks r.hdr.requirements).length)).sum) by simp]
      rw [natRange_append (1 + (recordChunks r.hdr.requirements).length) counter
          ((rs.map (fun r => 1 + (recordChunks r.hdr.requirements).length)).sum)]
      rw [hstep.1, hrest.1, hstep.2]
    · show (buildSteps (buildStep r counter).2.1 rs).2.1 = _
      rw [hrest.2, hstep.2]
      simp
      omega

/-- C2 (amended): within one group bucket, the identifiers assigned to the
file-level step and the numeric sub-steps, in record order, are exactly the
consecutive run 1, 2, 3, ... with no gaps; the rendered identifier strings
are their 4-digit renderings. The counter restarts at 1 for every group
call, so every non-empty group's first rendered identifier is the 4-digit
string of 1 — the same 4-digit identifier is assigned in any two non-empty
groups, refuting the no-reuse-across-groups part of the original claim. -/
theorem c2_ids_monotone (parsed : List FileRec) :
    (idsOfSteps (generateGroupSteps parsed)).length = idTotal parsed
    ∧ (∀ i, (idsOfSteps (generateGroupSteps parsed)).get? i =
        if i < idTotal parsed then some (1 + i) else none)
    ∧ idStringsOfSteps (generateGroupSteps parsed) =
        (natRange 1 (idTotal parsed)).map format4
    ∧ (∀ q : List FileRec, q ≠ [] →
        (idStringsOfSteps (generateGroupSteps q)).head? = some (format4 1)) := by
  have h := buildSteps_ids parsed 1
  have hids : idsOfSteps (generateGroupSteps parsed) = natRange 1 (idTotal parsed) := h.1
  refine ⟨?_, ?_, ?_, ?_⟩
  · rw [hids, natRange_length]
  · intro i
    rw [hids, natRange_get?]
  · unfold idStringsOfSteps
    rw [hids]
  · intro q hq
    have hq' : idsOfSteps (generateGroupSteps q) = natRange 1 (idTotal q) :=
      (buildSteps_ids q 1).1
    unfold idStringsOfSteps
    rw [hq']
    cases q with
    | nil => exact absurd rfl hq
    | cons r rs =>
        have hpos : 0 < idTotal (r :: rs) := by
          unfold idTotal
          simp only [List.map_cons, List.sum_cons]
          omega
        rcases hn : idTotal (r :: rs) with _ | m
        · rw [hn] at hpos
          exact absurd hpos (by omega)
        · rfl

/-- Counterexample for C2 as stated: the identifier counter restarts at 1
for each group document, so the 4-digit identifier string "0001" appears in
the output of two different groups — identifiers are reused across groups. -/
theorem c2_counterexample :
    format4 1 = str "0001"
    ∧ format4 1 ∈ idStringsOfSteps (generateGroupSteps
      [⟨str "Bogus_Compile_A.tsc", str "Bogus_Compile_A",
        ⟨str "d", str "i", str "o", [str "X-1"], 1, 2, 3, 4⟩⟩])
    ∧ format4 1 ∈ idStringsOfSteps (generateGroupSteps
      [⟨str "Bogus_Generate_B.tsc", str "Bogus_Generate_B",
        ⟨str "d2", str "i2", str "o2", [str "Y-1"], 1, 2, 3, 4⟩⟩])
    ∧ (str "Bogus_Compile_A.tsc" : Str) ≠ str "Bogus_Generate_B.tsc" := by
  refine ⟨by decide, ?_, ?_, by decide⟩ <;> decide

/-- Witness for C2's amended statement at a concrete one-record group. -/
theorem c2_witness :
    idsOfSteps (generateGroupSteps
      [⟨str "Bogus_Compile_A.tsc", str "Bogus_Compile_A",
        ⟨str "d", str "i", str "o", [str "X-1"], 1, 2, 3, 4⟩⟩]) = [1, 2]
    ∧ (idStringsOfSteps (generateGroupSteps
        [⟨str "Bogus_Compile_A.tsc", str "Bogus_Compile_A",
          ⟨str "d", str "i", str "o", [str "X-1"], 1, 2, 3, 4⟩⟩])).head? =
      some (format4 1) := by
  constructor
  · have h := (c2_ids_monotone
      [⟨str "Bogus_Compile_A.tsc", str "Bogus_Compile_A",
        ⟨str "d", str "i", str "o", [str "X-1"], 1, 2, 3, 4⟩⟩]).2.1
    have h0 := h 0
    have h1 := h 1
    have h2 := h 2
    rw [if_pos (by decide)] at h0 h1
    rw [if_neg (by decide)] at h2
    rcases hl : idsOfSteps (generateGroupSteps
      [⟨str "Bogus_Compile_A.tsc", str "Bogus_Compile_A",
        ⟨str "d", str "i", str "o", [str "X-1"], 1, 2, 3, 4⟩⟩]) with _ | ⟨a, _ | ⟨b, rest⟩⟩
    · rw [hl] at h0; simp at h0
    · rw [hl] at h1; simp at h1
    · rw [hl] at h0 h1 h2
      simp at h0 h1 h2
      rw [h0, h1, h2]
  · exact (c2_ids_monotone []).2.2.2
      [⟨str "Bogus_Compile_A.tsc", str "Bogus_Compile_A",
        ⟨str "d", str "i", str "o", [str "X-1"], 1, 2, 3, 4⟩⟩] (by decide)

-- ### Lemmas about warnings and the empty-tag paths

theorem buildSubstepsAux_warn (p : Str) (hdr : TscHeader) (dl il ol : List Str) :
    ∀ (chunks : List (List Str)) (counter idx : Nat),
      ∀ wng ∈ (buildSubstepsAux p hdr dl il ol counter idx chunks).2.2,
        wng.file = p := by
  intro chunks
  induction chunks with
  | nil => intro counter idx wng h; simp [buildSubstepsAux] at h
  | cons c cs ih =>
    intro counter idx wng h
    simp only [buildSubstepsAux] at h
    rcases List.mem_append.mp h with h1 | h2
    · by_cases hc : c ≠ []
      · rw [if_pos hc] at h1; simp at h1
      · rw [if_neg hc] at h1
        unfold build_tests_line at h1
        by_cases hreq : hdr.requirements ≠ []
        · rw [if_pos hreq] at h1; simp at h1
        · rw [if_neg hreq] at h1
          rcases List.mem_singleton.mp h1 with rfl
          rfl
    · exact ih (counter + 1) (idx + 1) wng h2

theorem build_field_lines_warn (label content : Str) (lineNo : Nat) (p : Str) :
    ∀ wng ∈ (build_field_lines label content lineNo p).2, wng.file = p := by
  intro wng h
  unfold build_field_lines at h
  by_cases hc : content ≠ []
  · rw [if_pos hc] at h; simp at h
  · rw [if_neg hc] at h
    rcases List.mem_singleton.mp h with rfl
    rfl

theorem buildStep_warn (r : FileRec) (counter : Nat) :
    ∀ wng ∈ (buildStep r counter).2.2, wng.file = r.name := by
  intro wng h
  simp only [buildStep] at h
  rcases List.mem_append.mp h with h1 | h4
  · rcases List.mem_append.mp h1 with h2 | h3
    · rcases List.mem_append.mp h2 with h5 | h6
      · exact build_field_lines_warn _ _ _ _ wng h5
      · exact build_field_lines_warn _ _ _ _ wng h6
    · exact build_field_lines_warn _ _ _ _ wng h3
  · exact buildSubstepsAux_warn _ _ _ _ _ _ _ _ wng h4

theorem buildSteps_warn : ∀ (records : List FileRec) (counter : Nat),
    ∀ wng ∈ (buildSteps counter records).2.2, ∃ r ∈ records, wng.file = r.name := by
  intro records
  induction records with
  | nil => intro counter wng h; simp [buildSteps] at h
  | cons r rs ih =>
    intro counter wng h
    simp only [buildSteps] at h
    rcases List.mem_append.mp h with h1 | h2
    · exact ⟨r, by simp, buildStep_warn r counter wng h1⟩
    · rcases ih (buildStep r counter).2.1 wng h2 with ⟨r2, hr2, hf⟩
      exact ⟨r2, by simp [hr2], hf⟩

/-- C10: tag-list formatting of an empty tag list is the empty string, so a
group whose member records all have zero requirement tags gets an empty
aggregated tests value with no TODO substitution, and every warning raised
while building the group's steps belongs to an individual record (the
TODO/warning path is the per-record empty-tag path, stated last). -/
theorem c10_empty_tags :
    (∀ w i : Nat, format_tests_value [] (str " ") w i = [])
    ∧ (∀ parsed : List FileRec, (∀ r ∈ parsed, r.hdr.requirements = []) →
        allTags parsed = [] ∧ testsAgg parsed = []
        ∧ aggTestsLine parsed = str "   :tests: "
        ∧ strContainsSub (str "TODO") (aggTestsLine parsed) = false
        ∧ ∀ wng ∈ generateGroupWarnings parsed, ∃ r ∈ parsed, wng.file = r.name)
    ∧ (∀ (p : Str) (hdr : TscHeader), hdr.requirements = [] →
        build_tests_line p hdr =
          (str "      :tests: TODO:Update the Requirements field in the header of " ++ p,
           [⟨p, hdr.requirementsLine,
             str "Missing Requirements content; emitting TODO in test specification rst file"⟩])) := by
  have hempty : ∀ w i : Nat, format_tests_value [] (str " ") w i = [] := by
    intro w i
    unfold format_tests_value
    rw [if_pos (by simp [mkTokens, strJoin])]
    rfl
  refine ⟨hempty, ?_, ?_⟩
  · intro parsed hall
    have hflat : parsed.flatMap (fun r => r.hdr.requirements) = [] := by
      rw [List.flatMap_eq_nil_iff]
      intro r hr
      exact hall r hr
    have htags : allTags parsed = [] := by
      unfold allTags
      rw [hflat]
      rfl
    have hagg : testsAgg parsed = [] := by
      unfold testsAgg
      rw [htags]
      exact hempty 120 11
    have hline : aggTestsLine parsed = str "   :tests: " := by
      unfold aggTestsLine
      rw [hagg]
      simp
    refine ⟨htags, hagg, hline, ?_, ?_⟩
    · rw [hline]; decide
    · exact buildSteps_warn parsed 1
  · intro p hdr hreq
    unfold build_tests_line
    rw [if_neg (by simp [hreq])]

/-- Witness for C10: a one-record group with no tags has an empty aggregated
tests value and a per-record TODO tests line with one warning. -/
theorem c10_witness :
    testsAgg [⟨str "Bogus_Compile_A.tsc", str "Bogus_Compile_A",
      ⟨str "d", str "i", str "o", [], 1, 2, 3, 4⟩⟩] = []
    ∧ (build_tests_line (str "Bogus_Compile_A.tsc")
        ⟨str "d", str "i", str "o", [], 1, 2, 3, 4⟩).1 =
      str "      :tests: TODO:Update the Requirements field in the header of Bogus_Compile_A.tsc"
    ∧ strContainsSub (str "TODO") ((build_tests_line (str "Bogus_Compile_A.tsc")
        ⟨str "d", str "i", str "o", [], 1, 2, 3, 4⟩).1) = true := by
  refine ⟨?_, ?_, by decide⟩
  · exact ((c10_empty_tags.2.1 _ (by intro r hr; rcases List.mem_singleton.mp hr with rfl; rfl)).2.1)
  · rw [c10_empty_tags.2.2 (str "Bogus_Compile_A.tsc")
      ⟨str "d", str "i", str "o", [], 1, 2, 3, 4⟩ rfl]
    decide

-- ### Lemmas about the TOC synchronizer

theorem strStartsWith_self_append (p t : Str) : strStartsWith p (p ++ t) = true := by
  induction p with
  | nil => rfl
  | cons c cs ih => simp [strStartsWith, ih]

theorem genMark_ne_nil (comp : Str) : genMark comp ≠ [] := by
  unfold genMark
  cases comp <;> simp [str]

theorem isGenLine_nil (comp : Str) : isGenLine comp [] = false := by
  unfold isGenLine
  rcases h : genMark comp with _ | ⟨a, b⟩
  · exact absurd h (genMark_ne_nil comp)
  · rfl

theorem pyLstrip_space_cons (s : Str) : pyLstrip (' ' :: s) = pyLstrip s := rfl

theorem dropWhile_length_le (p : Char → Bool) (l : Str) :
    (l.dropWhile p).length ≤ l.length := by
  induction l with
  | nil => simp
  | cons a l ih =>
    rw [List.dropWhile_cons]
    by_cases hp : p a = true
    · rw [if_pos hp]
      exact le_trans ih (by simp)
    · rw [if_neg hp]

theorem pyLstrip_head_not_space {c : Char} {cs : Str}
    (h : pyLstrip (c :: cs) = c :: cs) : pyIsSpace c = false := by
  by_cases hc : pyIsSpace c = true
  · exfalso
    unfold pyLstrip at h
    rw [List.dropWhile_cons, if_pos hc] at h
    have hlen := congrArg List.length h
    have hle := dropWhile_length_le pyIsSpace cs
    simp at hlen
    omega
  · simpa using hc

theorem pyLstrip_of_head_not_space {c : Char} (cs : Str) (h : pyIsSpace c = false) :
    pyLstrip (c :: cs) = c :: cs := by
  unfold pyLstrip
  rw [List.dropWhile_cons, if_neg (by simp [h])]

theorem pyLstrip_append_of_lstrip_eq {a : Str} (b : Str) (ha : pyLstrip a = a)
    (hb : a = [] → pyLstrip b = b) : pyLstrip (a ++ b) = a ++ b := by
  cases a with
  | nil => simpa using hb rfl
  | cons c cs =>
    have hc : pyIsSpace c = false := pyLstrip_head_not_space ha
    rw [List.cons_append]
    exact pyLstrip_of_head_not_space _ hc

theorem link_isGen {comp : Str} (mappings : List (Str × Str)) (g : Str)
    (hcomp : pyLstrip comp = comp) :
    isGenLine comp (tocLinkLine comp mappings g) = true := by
  unfold isGenLine tocLinkLine genMark
  show strStartsWith (comp ++ str "_oAW_")
    (pyLstrip (' ' :: ' ' :: ' ' ::
      (comp ++ str "_oAW_" ++ convert_group_name g mappings ++ str "_Tests.rst"))) = true
  rw [pyLstrip_space_cons, pyLstrip_space_cons, pyLstrip_space_cons]
  simp only [List.append_assoc]
  have hb : comp = [] →
      pyLstrip (str "_oAW_" ++ (convert_group_name g mappings ++ str "_Tests.rst")) =
        str "_oAW_" ++ (convert_group_name g mappings ++ str "_Tests.rst") := by
    intro _
    show pyLstrip ('_' :: (str "oAW_" ++ (convert_group_name g mappings ++ str "_Tests.rst"))) = _
    exact pyLstrip_of_head_not_space _ (by decide)
  rw [pyLstrip_append_of_lstrip_eq _ hcomp hb, ← List.append_assoc]
  exact strStartsWith_self_append _ _

theorem link_no_nl {comp : Str} (mappings : List (Str × Str)) (g : Str)
    (hcompnl : '\n' ∉ comp) (hconvnl : '\n' ∉ convert_group_name g mappings) :
    '\n' ∉ tocLinkLine comp mappings g := by
  unfold tocLinkLine genMark
  intro h
  rcases List.mem_append.mp h with h1 | h2
  · rcases List.mem_append.mp h1 with h3 | h4
    · rcases List.mem_append.mp h3 with h5 | h6
      · simp [str] at h5
      · rcases List.mem_append.mp h6 with h7 | h8
        · exact hcompnl h7
        · simp [str] at h8
    · exact hconvnl h4
  · simp [str] at h2

theorem pySplitlines_no_nl (s : Str) : ∀ l ∈ pySplitlines s, '\n' ∉ l := by
  intro l hl
  unfold pySplitlines at hl
  by_cases h0 : s = []
  · rw [if_pos h0] at hl; simp at hl
  · rw [if_neg h0] at hl
    by_cases he : strEndsWith (str "\n") s = true
    · rw [if_pos he] at hl
      exact splitChar_no_sep '\n' s l ((List.dropLast_sublist _).subset hl)
    · rw [if_neg he] at hl
      exact splitChar_no_sep '\n' s l hl

theorem filter_all_true {α : Type} {p : α → Bool} {l : List α}
    (h : ∀ x ∈ l, p x = true) : l.filter p = l := by
  induction l with
  | nil => rfl
  | cons a l ih =>
    rw [List.filter_cons, if_pos (h a (by simp)), ih (fun x hx => h x (by simp [hx]))]

theorem filter_all_false {α : Type} {p : α → Bool} {l : List α}
    (h : ∀ x ∈ l, p x = false) : l.filter p = [] := by
  induction l with
  | nil => rfl
  | cons a l ih =>
    rw [List.filter_cons, if_neg (by simp [h a (by simp)]),
      ih (fun x hx => h x (by simp [hx]))]

/-- C5: stripping generated lines and appending the current group links
leaves a TOC document whose generated lines are exactly one link line per
current group, in the given (bucket-ascending) group order, with no stale
generated line; running the same strip-then-append sequence again yields an
identical document. -/
theorem c5_toc_strip_append_idem (component : Str) (groups : List Str)
    (mappings : List (Str × Str)) (text : Str)
    (hcomp : pyLstrip component = component)
    (hcompnl : '\n' ∉ component)
    (hgroups : groups ≠ [])
    (hconv : ∀ g ∈ groups, '\n' ∉ convert_group_name g mappings) :
    (pySplitlines (append_group_links_to_toc component groups mappings
        (remove_generated_lines_from_toc component text))).filter
        (fun ln => isGenLine component ln) =
      groups.map (tocLinkLine component mappings)
    ∧ append_group_links_to_toc component groups mappings
        (remove_generated_lines_from_toc component
          (append_group_links_to_toc component groups mappings
            (remove_generated_lines_from_toc component text))) =
      append_group_links_to_toc component groups mappings
        (remove_generated_lines_from_toc component text) := by
  have hlinksne : groups.map (tocLinkLine component mappings) ≠ [] := by
    intro h
    exact hgroups (by simpa using h)
  have hlinksfree : ∀ l ∈ groups.map (tocLinkLine component mappings), '\n' ∉ l := by
    intro l hl
    rcases List.mem_map.mp hl with ⟨g, hg, rfl⟩
    exact link_no_nl mappings g hcompnl (hconv g hg)
  have hlinksgen : ∀ l ∈ groups.map (tocLinkLine component mappings),
      isGenLine component l = true := by
    intro l hl
    rcases List.mem_map.mp hl with ⟨g, hg, rfl⟩
    exact link_isGen mappings g hcomp
  have hfiltnot : ∀ l ∈ (pySplitlines text).filter
      (fun ln => ! isGenLine component ln), isGenLine component l = false := by
    intro l hl
    have := (List.mem_filter.mp hl).2
    simpa using this
  have hfiltfree : ∀ l ∈ (pySplitlines text).filter
      (fun ln => ! isGenLine component ln), '\n' ∉ l := by
    intro l hl
    exact pySplitlines_no_nl text l (List.mem_filter.mp hl).1
  -- the stripped document and its closed form
  have happ : ∀ t : Str, strEndsWith (str "\n") t = true →
      append_group_links_to_toc component groups mappings t =
        t ++ strJoin (str "\n") (groups.map (tocLinkLine component mappings)) ++ str "\n" := by
    intro t ht
    unfold append_group_links_to_toc
    rw [if_pos ht]
  have hstrip : ∀ u : Str, remove_generated_lines_from_toc component u =
      strJoin (str "\n") ((pySplitlines u).filter (fun ln => ! isGenLine component ln))
        ++ str "\n" := fun _ => rfl
  have hendw : ∀ u : Str,
      strEndsWith (str "\n") (remove_generated_lines_from_toc component u) = true := by
    intro u
    rw [hstrip u]
    exact strEndsWith_concat '\n' _
  -- the document after one strip-then-append, as joined lines
  have hdoc : ∀ u : Str,
      append_group_links_to_toc component groups mappings
        (remove_generated_lines_from_toc component u) =
      strJoin (str "\n")
        ((if (pySplitlines u).filter (fun ln => ! isGenLine component ln) = []
          then [[]]
          else (pySplitlines u).filter (fun ln => ! isGenLine component ln))
          ++ groups.map (tocLinkLine component mappings)) ++ str "\n" := by
    intro u
    rw [happ _ (hendw u), hstrip u]
    by_cases hf : (pySplitlines u).filter (fun ln => ! isGenLine component ln) = []
    · rw [hf, if_pos rfl]
      rcases hm : groups.map (tocLinkLine component mappings) with _ | ⟨l, ls⟩
      · exact absurd hm hlinksne
      · rw [show (([[]] : List Str) ++ l :: ls) = [] :: l :: ls from rfl, strJoin_cons₂]
        simp [strJoin]
    · rw [if_neg hf, strJoin_append hf hlinksne]
  -- the final lines of the document
  have hlines : ∀ u : Str, (∀ l ∈ pySplitlines u, '\n' ∉ l) →
      pySplitlines (append_group_links_to_toc component groups mappings
        (remove_generated_lines_from_toc component u)) =
      (if (pySplitlines u).filter (fun ln => ! isGenLine component ln) = []
        then [[]]
        else (pySplitlines u).filter (fun ln => ! isGenLine component ln))
        ++ groups.map (tocLinkLine component mappings) := by
    intro u hufree
    rw [hdoc u]
    have hfree : ∀ l ∈ (if (pySplitlines u).filter (fun ln => ! isGenLine component ln) = []
        then [[]]
        else (pySplitlines u).filter (fun ln => ! isGenLine component ln))
        ++ groups.map (tocLinkLine component mappings), '\n' ∉ l := by
      intro l hl
      rcases List.mem_append.mp hl with h1 | h2
      · by_cases hf : (pySplitlines u).filter (fun ln => ! isGenLine component ln) = []
        · rw [if_pos hf] at h1
          rcases List.mem_singleton.mp h1 with rfl
          simp
        · rw [if_neg hf] at h1
          exact hufree l (List.mem_filter.mp h1).1
      · exact hlinksfree l h2
    rw [pySplitlines_join hfree]
    rw [if_neg (by simp [hlinksne])]
  -- conjunct one: the generated lines are exactly the links
  have hgenlines : ∀ u : Str, (∀ l ∈ pySplitlines u, '\n' ∉ l) →
      (pySplitlines (append_group_links_to_toc component groups mappings
        (remove_generated_lines_from_toc component u))).filter
        (fun ln => isGenLine component ln) =
      groups.map (tocLinkLine component mappings) := by
    intro u hufree
    rw [hlines u hufree, List.filter_append]
    have h1 : (if (pySplitlines u).filter (fun ln => ! isGenLine component ln) = []
        then ([[]] : List Str)
        else (pySplitlines u).filter (fun ln => ! isGenLine component ln)).filter
        (fun ln => isGenLine component ln) = [] := by
      apply filter_all_false
      intro x hx
      by_cases hf : (pySplitlines u).filter (fun ln => ! isGenLine component ln) = []
      · rw [if_pos hf] at hx
        rcases List.mem_singleton.mp hx with rfl
        exact isGenLine_nil component
      · rw [if_neg hf] at hx
        have := (List.mem_filter.mp hx).2
        simpa using this
    rw [h1, filter_all_true hlinksgen]
    rfl
  refine ⟨hgenlines text (pySplitlines_no_nl text), ?_⟩
  -- idempotence: the second strip recovers the first stripped document
  have hstrip2 : remove_generated_lines_from_toc component
      (append_group_links_to_toc component groups mappings
        (remove_generated_lines_from_toc component text)) =
      remove_generated_lines_from_toc component text := by
    rw [hstrip (append_group_links_to_toc component groups mappings
      (remove_generated_lines_from_toc component text))]
    rw [hlines text (pySplitlines_no_nl text), List.filter_append]
    rw [hstrip text]
    have h2 : (groups.map (tocLinkLine component mappings)).filter
        (fun ln => ! isGenLine component ln) = [] := by
      apply filter_all_false
      intro x hx
      simp [hlinksgen x hx]
    rw [h2, List.append_nil]
    by_cases hf : (pySplitlines text).filter (fun ln => ! isGenLine component ln) = []
    · rw [if_pos hf, hf]
      rw [show List.filter (fun ln => ! isGenLine component ln) [[]] = [[]] from
        filter_all_true (by
          intro x hx
          rcases List.mem_singleton.mp hx with rfl
          simp [isGenLine_nil])]
      rfl
    · rw [if_neg hf, filter_all_true ?_]
      intro x hx
      simp [hfiltnot x hx]
  rw [hstrip2]

/-- Witness for C5 at a concrete component, groups and stale TOC text. -/
theorem c5_witness :
    (pySplitlines (append_group_links_to_toc (str "Bogus")
        [str "Compile", str "Generate"] []
        (remove_generated_lines_from_toc (str "Bogus")
          (str "intro\n   Bogus_oAW_Old_Tests.rst\nend\n")))).filter
      (fun ln => isGenLine (str "Bogus") ln) =
      [str "   Bogus_oAW_Compile_Tests.rst", str "   Bogus_oAW_Generate_Tests.rst"]
    ∧ append_group_links_to_toc (str "Bogus") [str "Compile", str "Generate"] []
        (remove_generated_lines_from_toc (str "Bogus")
          (append_group_links_to_toc (str "Bogus") [str "Compile", str "Generate"] []
            (remove_generated_lines_from_toc (str "Bogus")
              (str "intro\n   Bogus_oAW_Old_Tests.rst\nend\n")))) =
      append_group_links_to_toc (str "Bogus") [str "Compile", str "Generate"] []
        (remove_generated_lines_from_toc (str "Bogus")
          (str "intro\n   Bogus_oAW_Old_Tests.rst\nend\n")) := by
  have h := c5_toc_strip_append_idem (str "Bogus") [str "Compile", str "Generate"] []
    (str "intro\n   Bogus_oAW_Old_Tests.rst\nend\n")
    (by decide) (by decide) (by decide) (by decide)
  exact ⟨by rw [h.1]; decide, h.2⟩

-- ### Lemmas about the header scan

theorem scanAux_step_blank_continue {st : ScanState} {n : Nat} {raw : Str}
    {rest : List Str} (h : pyStrip raw = []) (h0 : ¬ st.orderIndex > 0) :
    scanAux st n (raw :: rest) = scanAux st (n + 1) rest := by
  simp only [scanAux, h, h0]
  simp

theorem scanAux_step_blank_stop {st : ScanState} {n : Nat} {raw : Str}
    {rest : List Str} (h : pyStrip raw = []) (h0 : st.orderIndex > 0) :
    scanAux st n (raw :: rest) = .ok st := by
  simp only [scanAux, h, h0]
  simp

theorem scanAux_step_marker {st : ScanState} {n : Nat} {raw : Str}
    {rest : List Str} {name : SectionName}
    (hblank : ¬ pyStrip raw = [])
    (hcm : strStartsWith (str "//") (pyLstrip raw) = true)
    (hmm : matchMarker (stripCommentMark raw) = some name)
    (hg : expectedOrder.get? st.orderIndex = some name) :
    scanAux st n (raw :: rest) =
      scanAux
        (setMarkerLine
          { st with current := some name, orderIndex := st.orderIndex + 1 } name n)
        (n + 1) rest := by
  simp only [scanAux, hblank, hcm, hmm, hg]
  simp

theorem scanAux_step_marker_err {st : ScanState} {n : Nat} {raw : Str}
    {rest : List Str} {name : SectionName}
    (hblank : ¬ pyStrip raw = [])
    (hcm : strStartsWith (str "//") (pyLstrip raw) = true)
    (hmm : matchMarker (stripCommentMark raw) = some name)
    (hg : ¬ expectedOrder.get? st.orderIndex = some name) :
    scanAux st n (raw :: rest) = .error (.outOfOrder name n) := by
  simp only [scanAux, hblank, hcm, hmm, hg]
  simp

theorem scanAux_step_content {st : ScanState} {n : Nat} {raw : Str}
    {rest : List Str} {sec : SectionName}
    (hblank : ¬ pyStrip raw = [])
    (hcm : strStartsWith (str "//") (pyLstrip raw) = true)
    (hmm : matchMarker (stripCommentMark raw) = none)
    (hcur : st.current = some sec) :
    scanAux st n (raw :: rest) =
      scanAux (appendSection st sec (pyRstrip (stripCommentMark raw))) (n + 1) rest := by
  simp only [scanAux, hblank, hcm, hmm, hcur]
  simp

theorem scanAux_step_content_err {st : ScanState} {n : Nat} {raw : Str}
    {rest : List Str}
    (hblank : ¬ pyStrip raw = [])
    (hcm : strStartsWith (str "//") (pyLstrip raw) = true)
    (hmm : matchMarker (stripCommentMark raw) = none)
    (hcur : st.current = none) :
    scanAux st n (raw :: rest) = .error (.mustStartWithDescription n) := by
  simp only [scanAux, hblank, hcm, hmm, hcur]
  simp

theorem scanAux_step_code_err {st : ScanState} {n : Nat} {raw : Str}
    {rest : List Str}
    (hblank : ¬ pyStrip raw = [])
    (hcm : ¬ strStartsWith (str "//") (pyLstrip raw) = true)
    (h0 : st.orderIndex = 0) :
    scanAux st n (raw :: rest) = .error .headerMissing := by
  simp only [scanAux, hblank, hcm, h0]
  simp

theorem scanAux_step_code_stop {st : ScanState} {n : Nat} {raw : Str}
    {rest : List Str}
    (hblank : ¬ pyStrip raw = [])
    (hcm : ¬ strStartsWith (str "//") (pyLstrip raw) = true)
    (h0 : ¬ st.orderIndex = 0) :
    scanAux st n (raw :: rest) = .ok st := by
  simp only [scanAux, hblank, hcm, h0]
  simp

theorem appendSection_fields (st : ScanState) (sec : SectionName) (l : Str) :
    (appendSection st sec l).current = st.current ∧
    (appendSection st sec l).orderIndex = st.orderIndex ∧
    (appendSection st sec l).descLine = st.descLine ∧
    (appendSection st sec l).inputLine = st.inputLine ∧
    (appendSection st sec l).outputLine = st.outputLine ∧
    (appendSection st sec l).reqLine = st.reqLine := by
  cases sec <;> simp [appendSection]

theorem MarkerChain_mono {st : ScanState} {n m : Nat} (h : MarkerChain st n)
    (hnm : n ≤ m) : MarkerChain st m := by
  rcases h with ⟨h1, h2, h3, h4⟩
  refine ⟨?_, ?_, ?_, ?_⟩
  · intro hh
    rcases h1 hh with ⟨d, hd, hlt⟩
    exact ⟨d, hd, by omega⟩
  · intro hh
    rcases h2 hh with ⟨d, i, hd, hi, hdi, hlt⟩
    exact ⟨d, i, hd, hi, hdi, by omega⟩
  · intro hh
    rcases h3 hh with ⟨d, i, o, hd, hi, ho, hdi, hio, hlt⟩
    exact ⟨d, i, o, hd, hi, ho, hdi, hio, by omega⟩
  · intro hh
    rcases h4 hh with ⟨d, i, o, q, hd, hi, ho, hq, hdi, hio, hoq, hlt⟩
    exact ⟨d, i, o, q, hd, hi, ho, hq, hdi, hio, hoq, by omega⟩

theorem MarkerChain_appendSection {st : ScanState} {n : Nat}
    (h : MarkerChain st n) (sec : SectionName) (l : Str) :
    MarkerChain (appendSection st sec l) n := by
  rcases appendSection_fields st sec l with ⟨_, hoi, hd, hi, ho, hq⟩
  unfold MarkerChain at h ⊢
  rw [hoi, hd, hi, ho, hq]
  exact h

theorem MarkerChain_marker_step {st : ScanState} {n : Nat} {name : SectionName}
    (hc : MarkerChain st n) (hg : expectedOrder.get? st.orderIndex = some name) :
    MarkerChain (setMarkerLine
      { st with current := some name, orderIndex := st.orderIndex + 1 } name n)
      (n + 1) := by
  rcases hc with ⟨h1, h2, h3, h4⟩
  rcases hoi : st.orderIndex with _ | _ | _ | _ | k
  · rw [hoi] at hg
    have hname : name = SectionName.description := by
      simpa [expectedOrder] using hg.symm
    subst hname
    refine ⟨fun _ => ⟨n, by simp [setMarkerLine], by omega⟩,
      fun hh => by simp [setMarkerLine] at hh,
      fun hh => by simp [setMarkerLine] at hh,
      fun hh => by simp [setMarkerLine] at hh⟩
  · rw [hoi] at hg
    have hname : name = SectionName.input := by
      simpa [expectedOrder] using hg.symm
    subst hname
    rcases h1 (by omega) with ⟨d, hd, hdn⟩
    refine ⟨fun _ => ⟨d, by simp [setMarkerLine, hd], by omega⟩,
      fun _ => ⟨d, n, by simp [setMarkerLine, hd], by simp [setMarkerLine], by omega, by omega⟩,
      fun hh => by simp [setMarkerLine] at hh,
      fun hh => by simp [setMarkerLine] at hh⟩
  · rw [hoi] at hg
    have hname : name = SectionName.output := by
      simpa [expectedOrder] using hg.symm
    subst hname
    rcases h2 (by omega) with ⟨d, i, hd, hi, hdi, hin⟩
    refine ⟨fun _ => ⟨d, by simp [setMarkerLine, hd], by omega⟩,
      fun _ => ⟨d, i, by simp [setMarkerLine, hd], by simp [setMarkerLine, hi], by omega, by omega⟩,
      fun _ => ⟨d, i, n, by simp [setMarkerLine, hd], by simp [setMarkerLine, hi],
        by simp [setMarkerLine], by omega, by omega, by omega⟩,
      fun hh => by simp [setMarkerLine] at hh⟩
  · rw [hoi] at hg
    have hname : name = SectionName.requirements := by
      simpa [expectedOrder] using hg.symm
    subst hname
    rcases h3 (by omega) with ⟨d, i, o, hd, hi, ho, hdi, hio, hon⟩
    refine ⟨fun _ => ⟨d, by simp [setMarkerLine, hd], by omega⟩,
      fun _ => ⟨d, i, by simp [setMarkerLine, hd], by simp [setMarkerLine, hi], by omega, by omega⟩,
      fun _ => ⟨d, i, o, by simp [setMarkerLine, hd], by simp [setMarkerLine, hi],
        by simp [setMarkerLine, ho], by omega, by omega, by omega⟩,
      fun _ => ⟨d, i, o, n, by simp [setMarkerLine, hd], by simp [setMarkerLine, hi],
        by simp [setMarkerLine, ho], by simp [setMarkerLine], by omega, by omega, by omega,
        by omega⟩⟩
  · rw [hoi] at hg
    have : expectedOrder.get? (k + 4) = none := by
      apply List.get?_eq_none.mpr
      simp [expectedOrder]
    rw [this] at hg
    exact Option.noConfusion hg

theorem scanAux_chain : ∀ (lines : List Str) (st : ScanState) (n : Nat)
    (st' : ScanState), scanAux st n lines = .ok st' → MarkerChain st n →
    ∃ m, n ≤ m ∧ MarkerChain st' m := by
  intro lines
  induction lines with
  | nil =>
    intro st n st' h hc
    have : st = st' := by
      simpa [scanAux] using h
    exact ⟨n, le_refl n, this ▸ hc⟩
  | cons raw rest ih =>
    intro st n st' h hc
    by_cases hblank : pyStrip raw = []
    · by_cases h0 : st.orderIndex > 0
      · rw [scanAux_step_blank_stop hblank h0] at h
        have : st = st' := by simpa using h
        exact ⟨n, le_refl n, this ▸ hc⟩
      · rw [scanAux_step_blank_continue hblank h0] at h
        rcases ih st (n + 1) st' h (MarkerChain_mono hc (by omega)) with ⟨m, hm, hcm⟩
        exact ⟨m, by omega, hcm⟩
    · by_cases hcm2 : strStartsWith (str "//") (pyLstrip raw) = true
      · rcases hmm : matchMarker (stripCommentMark raw) with _ | name
        · rcases hcur : st.current with _ | sec
          · rw [scanAux_step_content_err hblank hcm2 hmm hcur] at h
            exact absurd h (by simp)
          · rw [scanAux_step_content hblank hcm2 hmm hcur] at h
            rcases ih _ (n + 1) st' h
              (MarkerChain_mono (MarkerChain_appendSection hc sec _) (by omega))
              with ⟨m, hm, hcm3⟩
            exact ⟨m, by omega, hcm3⟩
        · by_cases hg : expectedOrder.get? st.orderIndex = some name
          · rw [scanAux_step_marker hblank hcm2 hmm hg] at h
            rcases ih _ (n + 1) st' h (MarkerChain_marker_step hc hg) with ⟨m, hm, hcm3⟩
            exact ⟨m, by omega, hcm3⟩
          · rw [scanAux_step_marker_err hblank hcm2 hmm hg] at h
            exact absurd h (by simp)
      · by_cases h0 : st.orderIndex = 0
        · rw [scanAux_step_code_err hblank hcm2 h0] at h
          exact absurd h (by simp)
        · rw [scanAux_step_code_stop hblank hcm2 h0] at h
          have : st = st' := by simpa using h
          exact ⟨n, le_refl n, this ▸ hc⟩

theorem initScanState_chain : MarkerChain initScanState 1 := by
  refine ⟨?_, ?_, ?_, ?_⟩ <;> intro hh <;>
    exact absurd hh (by simp [initScanState])

theorem stripCommentMark_comment (c : Str) : stripCommentMark (str "// " ++ c) = c := rfl

theorem comment_is_comment (c : Str) :
    strStartsWith (str "//") (pyLstrip (str "// " ++ c)) = true := rfl

theorem dropWhile_has_not {p : Char → Bool} :
    ∀ {s : Str} {c0 : Char}, c0 ∈ s → p c0 = false →
      ∃ x ∈ s.dropWhile p, p x = false := by
  intro s
  induction s with
  | nil => intro c0 h _; simp at h
  | cons a t ih =>
    intro c0 h hp
    by_cases ha : p a = true
    · rw [List.dropWhile_cons, if_pos ha]
      rcases List.mem_cons.mp h with rfl | hmem
      · rw [hp] at ha; exact absurd ha (by simp)
      · exact ih hmem hp
    · rw [List.dropWhile_cons, if_neg ha]
      rcases List.mem_cons.mp h with rfl | hmem
      · exact ⟨c0, by simp, hp⟩
      · exact ⟨c0, by simp [hmem], hp⟩

theorem pyStrip_ne_nil_of_mem {s : Str} {c0 : Char} (hc0 : c0 ∈ s)
    (hns : pyIsSpace c0 = false) : pyStrip s ≠ [] := by
  intro hcontra
  have h1 : pyLstrip (pyLstrip s).reverse = [] := by
    have h2 := congrArg List.reverse hcontra
    simpa [pyStrip, pyRstrip] using h2
  rcases dropWhile_has_not (p := pyIsSpace) hc0 hns with ⟨x, hx, hpx⟩
  have hx2 : x ∈ (pyLstrip s).reverse :=
    List.mem_reverse.mpr (show x ∈ pyLstrip s from hx)
  rcases dropWhile_has_not (p := pyIsSpace) hx2 hpx with ⟨y, hy, hpy⟩
  rw [show List.dropWhile pyIsSpace (pyLstrip s).reverse =
    pyLstrip (pyLstrip s).reverse from rfl] at hy
  rw [h1] at hy
  simp at hy

theorem comment_not_blank (c : Str) : ¬ pyStrip (str "// " ++ c) = [] := by
  apply pyStrip_ne_nil_of_mem (show '/' ∈ '/' :: '/' :: ' ' :: c by simp)
  decide

theorem appendBody_fields (sec : SectionName) :
    ∀ (bs : List Str) (st : ScanState),
      (appendBody st sec bs).orderIndex = st.orderIndex ∧
      (appendBody st sec bs).current = st.current ∧
      (appendBody st sec bs).descLine = st.descLine ∧
      (appendBody st sec bs).inputLine = st.inputLine ∧
      (appendBody st sec bs).outputLine = st.outputLine ∧
      (appendBody st sec bs).reqLine = st.reqLine := by
  intro bs
  induction bs with
  | nil => intro st; exact ⟨rfl, rfl, rfl, rfl, rfl, rfl⟩
  | cons b bs ih =>
    intro st
    have hstep := appendSection_fields st sec (pyRstrip b)
    have hrec := ih (appendSection st sec (pyRstrip b))
    have e : appendBody st sec (b :: bs) =
        appendBody (appendSection st sec (pyRstrip b)) sec bs := rfl
    rw [e]
    exact ⟨hrec.1.trans hstep.2.1, hrec.2.1.trans hstep.1,
      hrec.2.2.1.trans hstep.2.2.1, hrec.2.2.2.1.trans hstep.2.2.2.1,
      hrec.2.2.2.2.1.trans hstep.2.2.2.2.1, hrec.2.2.2.2.2.trans hstep.2.2.2.2.2⟩

theorem scanAux_body (sec : SectionName) :
    ∀ (bs : List Str) (st : ScanState) (n : Nat) (rest : List Str),
      st.current = some sec →
      (∀ c ∈ bs, matchMarker c = none) →
      scanAux st n (bs.map (fun c => str "// " ++ c) ++ rest) =
        scanAux (appendBody st sec bs) (n + bs.length) rest := by
  intro bs
  induction bs with
  | nil =>
    intro st n rest _ _
    simp [appendBody]
  | cons c cs ih =>
    intro st n rest hcur hnm
    rw [List.map_cons, List.cons_append]
    rw [scanAux_step_content (comment_not_blank c) (comment_is_comment c)
      (by rw [stripCommentMark_comment]; exact hnm c (by simp)) hcur]
    rw [stripCommentMark_comment]
    have hcur2 : (appendSection st sec (pyRstrip c)).current = some sec := by
      rw [(appendSection_fields st sec (pyRstrip c)).1, hcur]
    rw [ih (appendSection st sec (pyRstrip c)) (n + 1) rest hcur2
      (fun x hx => hnm x (by simp [hx]))]
    have e1 : appendBody (appendSection st sec (pyRstrip c)) sec cs =
        appendBody st sec (c :: cs) := rfl
    have e2 : n + 1 + cs.length = n + (c :: cs).length := by simp; omega
    rw [e1, e2]

/-- C3: a header parses successfully only if all four section markers appear
in the fixed order (their recorded 1-based line numbers strictly increase);
any file whose markers begin Description and then Output, whatever free text
lies between them, is rejected with an out-of-order structural error; an
errored file contributes nothing to its group's parsed records while every
sibling that parses is kept. -/
theorem c3_marker_order :
    (∀ (contents : Str) (hdr : TscHeader), parse_tsc_header contents = .ok hdr →
      hdr.descLine < hdr.inputLine ∧ hdr.inputLine < hdr.outputLine ∧
        hdr.outputLine < hdr.requirementsLine)
    ∧ (∀ (bs rest : List Str), (∀ c ∈ bs, matchMarker c = none) →
      scanHeader (str "// Description" :: (bs.map (fun c => str "// " ++ c) ++
        (str "// Output" :: rest))) = .error (.outOfOrder .output (2 + bs.length)))
    ∧ (∀ (p c : Str) (e : ScanErr) (rest : List (Str × Str)),
      parse_tsc_header c = .error e →
      parse_all_headers_group ((p, c) :: rest) = parse_all_headers_group rest)
    ∧ (∀ (p c : Str) (hdr : TscHeader) (rest : List (Str × Str)),
      parse_tsc_header c = .ok hdr →
      parse_all_headers_group ((p, c) :: rest) =
        (p, hdr) :: parse_all_headers_group rest) := by
  refine ⟨?_, ?_, ?_, ?_⟩
  · intro contents hdr hok
    unfold parse_tsc_header at hok
    rcases hscan : scanAux initScanState 1 (pySplitlines contents) with e | st0
    · have : scanHeader (pySplitlines contents) = .error e := by
        unfold scanHeader
        rw [hscan]
        rfl
      rw [this] at hok
      exact absurd hok (by simp [Except.map])
    · have hsh : scanHeader (pySplitlines contents) =
          if st0.orderIndex < 4 then
            .error (.missingSections (expectedOrder.drop st0.orderIndex))
          else .ok st0 := by
        unfold scanHeader
        rw [hscan]
        rfl
      by_cases hlt : st0.orderIndex < 4
      · rw [hsh, if_pos hlt] at hok
        exact absurd hok (by simp [Except.map])
      · rw [hsh, if_neg hlt] at hok
        have hhdr : hdr = headerOfState st0 := by
          simpa [Except.map] using hok.symm
        rcases scanAux_chain (pySplitlines contents) initScanState 1 st0 hscan
            initScanState_chain with ⟨m, _, hchain⟩
        rcases hchain.2.2.2 (by omega) with
          ⟨d, i, o, q, hd, hi, ho, hq, hdi, hio, hoq, _⟩
        rw [hhdr]
        unfold headerOfState
        simp only [hd, hi, ho, hq, Option.getD_some]
        exact ⟨hdi, hio, hoq⟩
  · intro bs rest hnm
    have step1 : scanAux initScanState 1
        (str "// Description" :: (bs.map (fun c => str "// " ++ c) ++
          (str "// Output" :: rest))) =
        scanAux ⟨[], [], [], [], some .description, 1, some 1, none, none, none⟩ 2
          (bs.map (fun c => str "// " ++ c) ++ (str "// Output" :: rest)) := rfl
    have step2 := scanAux_body .description bs
      ⟨[], [], [], [], some .description, 1, some 1, none, none, none⟩ 2
      (str "// Output" :: rest) rfl hnm
    have hfields := appendBody_fields .description bs
      ⟨[], [], [], [], some .description, 1, some 1, none, none, none⟩
    have step3 : scanAux (appendBody
        ⟨[], [], [], [], some .description, 1, some 1, none, none, none⟩ .description bs)
        (2 + bs.length) (str "// Output" :: rest) =
        .error (.outOfOrder .output (2 + bs.length)) := by
      apply scanAux_step_marker_err (by decide) (by decide) (by decide)
      rw [hfields.1]
      decide
    unfold scanHeader
    rw [step1, step2, step3]
    rfl
  · intro p c e rest herr
    unfold parse_all_headers_group
    rw [List.filterMap_cons]
    simp [herr]
  · intro p c hdr rest hok
    unfold parse_all_headers_group
    rw [List.filterMap_cons]
    simp [hok]

/-- Witness for C3: a concrete file with markers Description, Output, Input,
Requirements is rejected with the out-of-order error at its Output line, and
a group containing it keeps only its well-formed siblings. -/
theorem c3_witness :
    scanHeader (str "// Description" :: ([str "d1"].map (fun c => str "// " ++ c) ++
      (str "// Output" :: [str "// o1", str "// Input", str "// i1",
        str "// Requirements", str "// X-1"]))) =
      .error (.outOfOrder .output 3)
    ∧ parse_all_headers_group
        [(str "a.tsc", str "// Description\n// d\n// Input\n// i\n// Output\n// o\n// Requirements\n// X-1\n"),
         (str "b.tsc", str "// Description\n// d\n// Output\n// o\n// Input\n// i\n// Requirements\n// X-1\n"),
         (str "c.tsc", str "// Description\n// d\n// Input\n// i\n// Output\n// o\n// Requirements\n// X-2\n")] =
      [(str "a.tsc",
        ⟨str "d", str "i", str "o", [str "X-1"], 1, 3, 5, 7⟩),
       (str "c.tsc",
        ⟨str "d", str "i", str "o", [str "X-2"], 1, 3, 5, 7⟩)] := by
  constructor
  · have h := c3_marker_order.2.1 [str "d1"]
      [str "// o1", str "// Input", str "// i1", str "// Requirements", str "// X-1"]
      (by decide)
    rw [h]
    rfl
  · rw [c3_marker_order.2.2.2 (str "a.tsc") _
      ⟨str "d", str "i", str "o", [str "X-1"], 1, 3, 5, 7⟩ _ (by rfl)]
    rw [c3_marker_order.2.2.1 (str "b.tsc") _
      (.outOfOrder .output 3) _ (by rfl)]
    rw [c3_marker_order.2.2.2 (str "c.tsc") _
      ⟨str "d", str "i", str "o", [str "X-2"], 1, 3, 5, 7⟩ _ (by rfl)]
    rfl

-- ### Lemmas about requirement-tag normalization

theorem splitPredAux_replaceComma : ∀ (s : Str) (cur : Str),
    splitPredAux pyIsSpace cur (replaceComma s) = splitPredAux isTagSep cur s := by
  intro s
  induction s with
  | nil => intro cur; rfl
  | cons c rest ih =>
    intro cur
    by_cases hc : c = ','
    · subst hc
      show splitPredAux pyIsSpace cur (' ' :: replaceComma rest) = _
      simp only [splitPredAux]
      rw [if_pos (show pyIsSpace ' ' = true by decide),
        if_pos (show isTagSep ',' = true by decide)]
      by_cases hcur : cur = [] <;> simp [hcur, ih]
    · have e : replaceComma (c :: rest) = c :: replaceComma rest := by
        simp [replaceComma, hc]
      rw [e]
      simp only [splitPredAux]
      have hsep : isTagSep c = pyIsSpace c := by
        simp [isTagSep, hc]
      rw [hsep]
      by_cases hp : pyIsSpace c = true
      · rw [if_pos hp, if_pos hp]
        by_cases hcur : cur = [] <;> simp [hcur, ih]
      · rw [if_neg hp, if_neg hp, ih]

theorem splitPredAux_append_sep {p : Char → Bool} {c : Char} (hp : p c = true) :
    ∀ (x : Str) (cur : Str) (y : Str),
      splitPredAux p cur (x ++ c :: y) =
        splitPredAux p cur x ++ splitPredAux p [] y := by
  intro x
  induction x with
  | nil =>
    intro cur y
    simp only [List.nil_append, splitPredAux, hp, if_pos]
    by_cases hcur : cur = [] <;> simp [hcur]
  | cons a x' ih =>
    intro cur y
    rw [List.cons_append]
    simp only [splitPredAux]
    by_cases ha : p a = true
    · rw [if_pos ha, if_pos ha]
      by_cases hcur : cur = [] <;> simp [hcur, ih]
    · rw [if_neg ha, if_neg ha, ih]

theorem splitPred_strJoin_flat {p : Char → Bool} {c : Char} (hp : p c = true) :
    ∀ (parts : List Str),
      pySplitPred p (strJoin [c] parts) = parts.flatMap (pySplitPred p) := by
  intro parts
  induction parts with
  | nil => rfl
  | cons a rest ih =>
    cases rest with
    | nil => simp [strJoin]
    | cons b rest2 =>
      rw [strJoin_cons₂]
      have e : a ++ [c] ++ strJoin [c] (b :: rest2) =
          a ++ c :: strJoin [c] (b :: rest2) := by simp
      rw [e]
      unfold pySplitPred
      rw [splitPredAux_append_sep hp]
      rw [show splitPredAux p [] (strJoin [c] (b :: rest2)) =
        pySplitPred p (strJoin [c] (b :: rest2)) from rfl, ih]
      rfl

theorem splitPredAux_tokens {p : Char → Bool} :
    ∀ (s : Str) (cur : Str), (∀ ch ∈ cur, p ch = false) →
      ∀ t ∈ splitPredAux p cur s, t ≠ [] ∧ ∀ ch ∈ t, p ch = false := by
  intro s
  induction s with
  | nil =>
    intro cur hcur t ht
    simp only [splitPredAux] at ht
    by_cases hc : cur = []
    · rw [if_pos hc] at ht; simp at ht
    · rw [if_neg hc] at ht
      rcases List.mem_singleton.mp ht with rfl
      exact ⟨hc, hcur⟩
  | cons c rest ih =>
    intro cur hcur t ht
    simp only [splitPredAux] at ht
    by_cases hp : p c = true
    · rw [if_pos hp] at ht
      by_cases hc : cur = []
      · rw [if_pos hc] at ht
        exact ih [] (by simp) t ht
      · rw [if_neg hc] at ht
        rcases List.mem_cons.mp ht with rfl | ht2
        · exact ⟨hc, hcur⟩
        · exact ih [] (by simp) t ht2
    · rw [if_neg hp] at ht
      refine ih (cur ++ [c]) ?_ t ht
      intro ch hch
      rcases List.mem_append.mp hch with h1 | h2
      · exact hcur ch h1
      · rcases List.mem_singleton.mp h2 with rfl
        simpa using hp

theorem dropWhile_eq_self_of_all {p : Char → Bool} {l : Str}
    (h : ∀ ch ∈ l, p ch = false) : l.dropWhile p = l := by
  cases l with
  | nil => rfl
  | cons a t =>
    rw [List.dropWhile_cons, if_neg (by simp [h a (by simp)])]

theorem pyStrip_eq_self {t : Str} (h : ∀ ch ∈ t, pyIsSpace ch = false) :
    pyStrip t = t := by
  unfold pyStrip pyLstrip pyRstrip pyLstrip
  rw [dropWhile_eq_self_of_all h]
  rw [dropWhile_eq_self_of_all (fun ch hch => h ch (List.mem_reverse.mp hch))]
  simp

theorem notSep_notSpace {ch : Char} (h : isTagSep ch = false) :
    pyIsSpace ch = false := by
  unfold isTagSep at h
  rcases Bool.or_eq_false_iff.mp h with ⟨h1, _⟩
  exact h1

theorem requirementTags_eq_specTags (reqLines : List Str) :
    requirementTags reqLines = specTags (strJoin (str "\n") reqLines) := by
  have hT : pySplitWs (replaceComma (strJoin (str " ") reqLines)) =
      pySplitPred isTagSep (strJoin (str " ") reqLines) := by
    unfold pySplitWs pySplitPred
    exact splitPredAux_replaceComma _ []
  have hflat1 : pySplitPred isTagSep (strJoin (str " ") reqLines) =
      reqLines.flatMap (pySplitPred isTagSep) := by
    rw [show (str " ") = [' '] from rfl]
    exact splitPred_strJoin_flat (by decide) reqLines
  have hflat2 : pySplitPred isTagSep (strJoin (str "\n") reqLines) =
      reqLines.flatMap (pySplitPred isTagSep) := by
    rw [show (str "\n") = ['\n'] from rfl]
    exact splitPred_strJoin_flat (by decide) reqLines
  have htok : ∀ t ∈ reqLines.flatMap (pySplitPred isTagSep),
      t ≠ [] ∧ ∀ ch ∈ t, isTagSep ch = false := by
    intro t ht
    rcases List.mem_flatMap.mp ht with ⟨l, hl, htl⟩
    exact splitPredAux_tokens l [] (by simp) t htl
  have hstripid : ∀ t ∈ reqLines.flatMap (pySplitPred isTagSep), pyStrip t = t := by
    intro t ht
    exact pyStrip_eq_self (fun ch hch => notSep_notSpace ((htok t ht).2 ch hch))
  simp only [requirementTags, specTags]
  rw [hT, hflat1, hflat2]
  have hfilter : (reqLines.flatMap (pySplitPred isTagSep)).filter
      (fun t => pyStrip t ≠ []) = reqLines.flatMap (pySplitPred isTagSep) := by
    apply filter_all_true
    intro t ht
    have h1 : pyStrip t = t := hstripid t ht
    have h2 : t ≠ [] := (htok t ht).1
    simp [h1, h2]
  rw [hfilter]

/-- C4: requirement tags equal the spec's normalization (split the section
text on both commas and whitespace, trim, deduplicate, sort ascending); the
resulting list is sorted and duplicate-free and holds exactly the split
tokens; parsing produces exactly these tags; the aggregated group tag list
is the sorted deduplicated union of the member records' tags. -/
theorem c4_requirement_tags :
    (∀ reqLines : List Str,
      requirementTags reqLines = specTags (strJoin (str "\n") reqLines))
    ∧ (∀ reqLines : List Str,
      (requirementTags reqLines).Sorted StrLeP ∧ (requirementTags reqLines).Nodup ∧
      ∀ t, t ∈ requirementTags reqLines ↔
        t ∈ reqLines.flatMap (pySplitPred isTagSep))
    ∧ (∀ (contents : Str) (st : ScanState),
      scanHeader (pySplitlines contents) = .ok st →
      parse_tsc_header contents = .ok (headerOfState st) ∧
      (headerOfState st).requirements = requirementTags st.req)
    ∧ (∀ parsed : List FileRec,
      (allTags parsed).Sorted StrLeP ∧ (allTags parsed).Nodup ∧
      ∀ t, t ∈ allTags parsed ↔ ∃ r ∈ parsed, t ∈ r.hdr.requirements) := by
  refine ⟨requirementTags_eq_specTags, ?_, ?_, ?_⟩
  · intro reqLines
    have hexp := requirementTags_eq_specTags reqLines
    refine ⟨sortStrs_sorted _, sortStrs_nodup (List.nodup_dedup _), ?_⟩
    intro t
    simp only [requirementTags]
    rw [mem_sortStrs, List.mem_dedup]
    constructor
    · intro ht
      rcases List.mem_map.mp ht with ⟨t0, ht0, rfl⟩
      have ht0' := List.mem_filter.mp ht0
      have hT : pySplitWs (replaceComma (strJoin (str " ") reqLines)) =
          reqLines.flatMap (pySplitPred isTagSep) := by
        unfold pySplitWs pySplitPred
        rw [splitPredAux_replaceComma _ []]
        rw [show splitPredAux isTagSep [] (strJoin (str " ") reqLines) =
          pySplitPred isTagSep (strJoin (str " ") reqLines) from rfl,
          show (str " ") = [' '] from rfl]
        exact splitPred_strJoin_flat (by decide) reqLines
      rw [hT] at ht0'
      have hm := ht0'.1
      have hid : pyStrip t0 = t0 := by
        rcases List.mem_flatMap.mp hm with ⟨l, hl, htl⟩
        have := splitPredAux_tokens l [] (by simp) t0 htl
        exact pyStrip_eq_self (fun ch hch => notSep_notSpace (this.2 ch hch))
      rw [hid]
      exact hm
    · intro ht
      have hT : pySplitWs (replaceComma (strJoin (str " ") reqLines)) =
          reqLines.flatMap (pySplitPred isTagSep) := by
        unfold pySplitWs pySplitPred
        rw [splitPredAux_replaceComma _ []]
        rw [show splitPredAux isTagSep [] (strJoin (str " ") reqLines) =
          pySplitPred isTagSep (strJoin (str " ") reqLines) from rfl,
          show (str " ") = [' '] from rfl]
        exact splitPred_strJoin_flat (by decide) reqLines
      have hid : pyStrip t = t := by
        rcases List.mem_flatMap.mp ht with ⟨l, hl, htl⟩
        have := splitPredAux_tokens l [] (by simp) t htl
        exact pyStrip_eq_self (fun ch hch => notSep_notSpace (this.2 ch hch))
      have hne : t ≠ [] := by
        rcases List.mem_flatMap.mp ht with ⟨l, hl, htl⟩
        exact (splitPredAux_tokens l [] (by simp) t htl).1
      apply List.mem_map.mpr
      refine ⟨t, ?_, hid⟩
      apply List.mem_filter.mpr
      refine ⟨?_, by simp [hid, hne]⟩
      rw [hT]
      exact ht
  · intro contents st hscanok
    constructor
    · unfold parse_tsc_header
      rw [hscanok]
      rfl
    · rfl
  · intro parsed
    refine ⟨sortStrs_sorted _, sortStrs_nodup (List.nodup_dedup _), ?_⟩
    intro t
    unfold allTags
    rw [mem_sortStrs, List.mem_dedup, List.mem_flatMap]

/-- Witness for C4: concrete tag text and the Scenario D aggregation. -/
theorem c4_witness :
    requirementTags [str "X-2, X-1"] = specTags (strJoin (str "\n") [str "X-2, X-1"])
    ∧ requirementTags [str "X-2, X-1"] = [str "X-1", str "X-2"]
    ∧ (parse_tsc_header
        (str "// Description\n// d\n// Input\n// i\n// Output\n// o\n// Requirements\n// X-2, X-1\n")).map
        (fun h => h.requirements) = .ok [str "X-1", str "X-2"]
    ∧ testsAgg
        [⟨str "Bogus_Compile_A.tsc", str "Bogus_Compile_A",
          ⟨str "d", str "i", str "o", [str "X-1", str "X-2"], 1, 2, 3, 4⟩⟩,
         ⟨str "Bogus_Compile_B.tsc", str "Bogus_Compile_B",
          ⟨str "d", str "i", str "o", [str "X-2", str "X-3"], 1, 2, 3, 4⟩⟩] =
      str "X-1, X-2, X-3" :=
  ⟨c4_requirement_tags.1 [str "X-2, X-1"], by decide,
   by
     have h := (c4_requirement_tags.2.2.1
       (str "// Description\n// d\n// Input\n// i\n// Output\n// o\n// Requirements\n// X-2, X-1\n")
       ⟨[str "d"], [str "i"], [str "o"], [str "X-2, X-1"], some .requirements, 4,
        some 1, some 3, some 5, some 7⟩ (by rfl)).1
     rw [h]
     rfl,
   by decide⟩

-- ### Lemmas about the placeholder rendering branch

theorem strStartsWith_append_right {n s : Str} (t : Str)
    (h : strStartsWith n s = true) : strStartsWith n (s ++ t) = true := by
  induction n generalizing s with
  | nil => rfl
  | cons c cs ih =>
      cases s with
      | nil => simp [strStartsWith] at h
      | cons d ds =>
          simp only [strStartsWith, Bool.and_eq_true, beq_iff_eq] at h
          simp only [List.cons_append, strStartsWith, Bool.and_eq_true, beq_iff_eq]
          exact ⟨h.1, ih h.2⟩

theorem strContainsSub_nil_needle (s : Str) : strContainsSub [] s = true := by
  induction s with
  | nil => rfl
  | cons c cs ih => simp [strContainsSub, strStartsWith]

theorem strContainsSub_append_left {n s : Str} (t : Str)
    (h : strContainsSub n s = true) : strContainsSub n (s ++ t) = true := by
  induction s with
  | nil =>
      have hn : n = [] := by
        cases n with
        | nil => rfl
        | cons c cs => simp [strContainsSub, strStartsWith] at h
      subst hn
      exact strContainsSub_nil_needle t
  | cons c cs ih =>
      simp only [strContainsSub, Bool.or_eq_true] at h
      simp only [List.cons_append, strContainsSub, Bool.or_eq_true]
      rcases h with h | h
      · exact Or.inl (strStartsWith_append_right t h)
      · exact Or.inr (ih h)

theorem strContainsSub_append_right {n t : Str} (s : Str)
    (h : strContainsSub n t = true) : strContainsSub n (s ++ t) = true := by
  induction s with
  | nil => simpa using h
  | cons c cs ih =>
      simp only [List.cons_append, strContainsSub, Bool.or_eq_true]
      exact Or.inr ih

theorem strEndsWith_append_self (p name : Str) :
    strEndsWith name (p ++ name) = true := by
  unfold strEndsWith
  rw [List.reverse_append]
  exact strStartsWith_self_append _ _

theorem format_multiline_single (label : Str) (b : Nat) {txt : Str}
    (hne : txt ≠ []) (hfree : '\n' ∉ txt) :
    format_multiline_field label txt b = [spaces b ++ label ++ str ": " ++ txt] := by
  simp only [format_multiline_field]
  rw [if_neg hne, pySplitlines_singleton_of_free hne hfree]
  rfl

theorem oawPlaceholderLines_explicit {name : Str} (hfree : '\n' ∉ name) :
    oawPlaceholderLines name =
      [str "      :tests: TODO:Update the Requirements field in the header of " ++ name,
       str "      ",
       spaces 6 ++ str "Description" ++ str ": " ++
         (str "TODO:Update the Description field in the header of " ++ name),
       str "      ",
       spaces 6 ++ str "Input" ++ str ": " ++
         (str "TODO:Update the Input field in the header of " ++ name),
       [],
       spaces 6 ++ str "Output" ++ str ": " ++
         (str "TODO:Update the Output field in the header of " ++ name)] := by
  unfold oawPlaceholderLines
  rw [format_multiline_single _ _ (by simp [str]) (by simp [str, hfree]),
      format_multiline_single _ _ (by simp [str]) (by simp [str, hfree]),
      format_multiline_single _ _ (by simp [str]) (by simp [str, hfree])]
  rfl

/-- C7: a header whose four section markers are all present but carry zero
accumulated content lines parses with the placeholder flag set, and the flag
is set only then (any non-empty section clears it); rendering a placeholder
record emits the frame, then the placeholder block, and that block carries
exactly four TODO substitution lines (requirements, description, input,
output), each ending in the source file's name. -/
theorem c7_placeholder :
    (∀ (contents : Str) (st : ScanState) (hdr : OawTscHeader),
      scanHeader (pySplitlines contents) = .ok st →
      parse_tsc_header_oaw contents = .ok hdr →
      (hdr.placeholder = true ↔
        (st.desc = [] ∧ st.inp = [] ∧ st.outp = [] ∧ st.req = [])))
    ∧ (∀ (component conv stem name : Str) (hdr : OawTscHeader) (id1 id2 : Nat),
      hdr.placeholder = true → '\n' ∉ name →
      oawRecordLines component conv stem name hdr id1 id2 =
        oawFrameLines component conv stem id1 id2 ++ oawPlaceholderLines name ++ [[]]
      ∧ countTodo (oawPlaceholderLines name) = 4
      ∧ ∀ l ∈ oawPlaceholderLines name,
          strContainsSub (str "TODO:") l = true → strEndsWith name l = true) := by
  constructor
  · intro contents st hdr hscan hparse
    unfold parse_tsc_header_oaw at hparse
    rw [hscan] at hparse
    simp only [Except.map, Except.ok.injEq] at hparse
    subst hparse
    simp [Bool.and_eq_true, decide_eq_true_iff, and_assoc]
  · intro component conv stem name hdr id1 id2 hplace hfree
    have hexp := oawPlaceholderLines_explicit hfree
    have ht1 : strContainsSub (str "TODO:")
        (str "      :tests: TODO:Update the Requirements field in the header of "
          ++ name) = true :=
      strContainsSub_append_left name (by decide)
    have ht2 : strContainsSub (str "TODO:")
        (spaces 6 ++ str "Description" ++ str ": " ++
          (str "TODO:Update the Description field in the header of " ++ name)) = true := by
      have h := strContainsSub_append_left name
        (show strContainsSub (str "TODO:")
          (spaces 6 ++ str "Description" ++ str ": " ++
            str "TODO:Update the Description field in the header of ") = true by decide)
      simpa [List.append_assoc] using h
    have ht3 : strContainsSub (str "TODO:")
        (spaces 6 ++ str "Input" ++ str ": " ++
          (str "TODO:Update the Input field in the header of " ++ name)) = true := by
      have h := strContainsSub_append_left name
        (show strContainsSub (str "TODO:")
          (spaces 6 ++ str "Input" ++ str ": " ++
            str "TODO:Update the Input field in the header of ") = true by decide)
      simpa [List.append_assoc] using h
    have ht4 : strContainsSub (str "TODO:")
        (spaces 6 ++ str "Output" ++ str ": " ++
          (str "TODO:Update the Output field in the header of " ++ name)) = true := by
      have h := strContainsSub_append_left name
        (show strContainsSub (str "TODO:")
          (spaces 6 ++ str "Output" ++ str ": " ++
            str "TODO:Update the Output field in the header of ") = true by decide)
      simpa [List.append_assoc] using h
    have hf1 : strContainsSub (str "TODO:") (str "      ") = false := by decide
    have hf2 : strContainsSub (str "TODO:") ([] : Str) = false := by decide
    refine ⟨?_, ?_, ?_⟩
    · unfold oawRecordLines
      rw [if_pos hplace]
    · rw [hexp]
      simp only [countTodo, List.filter_cons, ht1, ht2, ht3, ht4, hf1, hf2]
      simp
    · rw [hexp]
      intro l hl
      simp only [List.mem_cons, List.not_mem_nil, or_false] at hl
      rcases hl with rfl | rfl | rfl | rfl | rfl | rfl | rfl
      · intro h2
        exact strEndsWith_append_self _ name
      · intro h2
        rw [hf1] at h2
        cases h2
      · intro h2
        have h := strEndsWith_append_self
          (spaces 6 ++ str "Description" ++ str ": " ++
            str "TODO:Update the Description field in the header of ") name
        simpa [List.append_assoc] using h
      · intro h2
        rw [hf1] at h2
        cases h2
      · intro h2
        have h := strEndsWith_append_self
          (spaces 6 ++ str "Input" ++ str ": " ++
            str "TODO:Update the Input field in the header of ") name
        simpa [List.append_assoc] using h
      · intro h2
        rw [hf2] at h2
        cases h2
      · intro h2
        have h := strEndsWith_append_self
          (spaces 6 ++ str "Output" ++ str ": " ++
            str "TODO:Update the Output field in the header of ") name
        simpa [List.append_assoc] using h


/-- Witness for C7: a concrete all-markers, no-content file parses with the
placeholder flag, a header with content does not, and a concrete placeholder
block carries exactly four TODO lines. -/
theorem c7_witness :
    countTodo (oawPlaceholderLines (str "Empty_Header.tsc")) = 4
    ∧ (parse_tsc_header_oaw
        (str "// Description\n// Input\n// Output\n// Requirements\nCODE\n")).map
        (fun h => h.placeholder) = .ok true
    ∧ (parse_tsc_header_oaw
        (str "// Description\n// d\n// Input\n// Output\n// Requirements\nCODE\n")).map
        (fun h => h.placeholder) = .ok false
    ∧ ((⟨[], [], [], [], true, 1, 2, 3, 4⟩ : OawTscHeader).placeholder = true ↔
        ((⟨[], [], [], [], some .requirements, 4, some 1, some 2, some 3,
            some 4⟩ : ScanState).desc = []
          ∧ (⟨[], [], [], [], some .requirements, 4, some 1, some 2, some 3,
              some 4⟩ : ScanState).inp = []
          ∧ (⟨[], [], [], [], some .requirements, 4, some 1, some 2, some 3,
              some 4⟩ : ScanState).outp = []
          ∧ (⟨[], [], [], [], some .requirements, 4, some 1, some 2, some 3,
              some 4⟩ : ScanState).req = [])) := by
  refine ⟨?_, by rfl, by rfl, ?_⟩
  · exact (c7_placeholder.2 (str "C") (str "V") (str "Empty_Header")
      (str "Empty_Header.tsc")
      ⟨[], [], [], [], true, 1, 2, 3, 4⟩ 1 2 (by rfl) (by decide)).2.1
  · exact c7_placeholder.1
      (str "// Description\n// Input\n// Output\n// Requirements\nCODE\n")
      ⟨[], [], [], [], some .requirements, 4, some 1, some 2, some 3, some 4⟩
      ⟨[], [], [], [], true, 1, 2, 3, 4⟩ (by rfl) (by rfl)

/-- C8: amended locate contract — the direct child of the search root is
preferred; otherwise the result is the FIRST match of the recursive glob in
depth-first directory order (not the shallowest or lexicographically
smallest); no result exactly when there is no match, and any result is a
real match. -/
theorem c8_toc_locate :
    (∀ t : FsTree, t.rootHasFile = true → find_toc_rst t = some [])
    ∧ (∀ t : FsTree, find_toc_rst t = none ↔ rglobMatches t = [])
    ∧ (∀ (t : FsTree) (p : List Str), find_toc_rst t = some p → p ∈ rglobMatches t)
    ∧ (∀ t : FsTree, t.rootHasFile = false →
        find_toc_rst t = (rglobMatches t).head?) := by
  have hfind : ∀ t : FsTree, find_toc_rst t =
      if t.rootHasFile then some [] else (rglobMatches t).head? := by
    intro t
    unfold find_toc_rst
    split_ifs with h
    · rfl
    · cases hm : rglobMatches t <;> rfl
  refine ⟨?_, ?_, ?_, ?_⟩
  · intro t ht
    rw [hfind, if_pos ht]
  · intro t
    rw [hfind]
    by_cases h : t.rootHasFile = true
    · rw [if_pos h]
      constructor
      · intro hc
        cases hc
      · intro hm
        exfalso
        cases t with
        | node hf cs =>
            simp only [FsTree.rootHasFile] at h
            simp [rglobMatches, h] at hm
    · rw [if_neg h]
      cases hm : rglobMatches t <;> simp
  · intro t p hp
    rw [hfind] at hp
    by_cases h : t.rootHasFile = true
    · rw [if_pos h] at hp
      cases hp
      cases t with
      | node hf cs =>
          simp only [FsTree.rootHasFile] at h
          simp [rglobMatches, h]
    · rw [if_neg h] at hp
      cases hm : rglobMatches t with
      | nil =>
          rw [hm] at hp
          cases hp
      | cons a l =>
          rw [hm] at hp
          simp only [List.head?, Option.some.injEq] at hp
          subst hp
          exact List.mem_cons_self _ _
  · intro t ht
    rw [hfind, if_neg (by simp [ht])]

/-- Counterexample for C8: in a tree where a deeper match sits under an
earlier-scanned subdirectory, the code returns the deep first-traversed
match while the spec's shallowest-depth rule picks the shallow one. -/
theorem c8_counterexample :
    find_toc_rst (FsTree.node false
      [(str "a", FsTree.node false [(str "b", FsTree.node true [])]),
       (str "z", FsTree.node true [])]) = some [str "a", str "b"]
    ∧ specFindToc (FsTree.node false
      [(str "a", FsTree.node false [(str "b", FsTree.node true [])]),
       (str "z", FsTree.node true [])]) = some [str "z"]
    ∧ ([str "a", str "b"] : List Str) ≠ [str "z"] :=
  ⟨rfl, rfl, by decide⟩

/-- Witness for C8: the amended contract applied at concrete trees. -/
theorem c8_witness :
    find_toc_rst (FsTree.node true []) = some []
    ∧ find_toc_rst (FsTree.node false [(str "z", FsTree.node true [])]) =
        (rglobMatches (FsTree.node false [(str "z", FsTree.node true [])])).head?
    ∧ [str "z"] ∈ rglobMatches (FsTree.node false [(str "z", FsTree.node true [])]) :=
  ⟨c8_toc_locate.1 (FsTree.node true []) (by rfl),
   c8_toc_locate.2.2.2 (FsTree.node false [(str "z", FsTree.node true [])]) (by rfl),
   c8_toc_locate.2.2.1 (FsTree.node false [(str "z", FsTree.node true [])])
     [str "z"] (by rfl)⟩
